import Mathlib

/-!
Verification development for the SAT-variable-clustering repository
(VIG construction, FH graph segmentation with modularity guard, DIMACS
CNF parsing and clause normalization).

The C++ sources are shallowly embedded:

* machine doubles are idealized as exact rationals (`ℚ`); where the source
  text contains an explicit narrowing cast to `float` (binary32) or where a
  `double` constant is produced by a correctly-rounded division, the rounding
  is modelled explicitly by `fpRound` (round to nearest, ties to even, at a
  given significand width; the values arising in this development are far
  from overflow and subnormal ranges, which are therefore not modelled);
* `std::sort`, which guarantees only an ordering w.r.t. the comparator, is
  modelled by the deterministic stable `List.insertionSort` on the reflexive
  closure of the comparator (any run of the C++ code produces a permutation
  admissible for that model, and on comparators whose ties are exact
  duplicates the model is exact);
* the loops of the union-find structure, which terminate on every forest,
  are given explicit fuel bounded by the number of elements (enough fuel for
  every state reachable by the embedded operations);
* transcendental calls (`std::pow` with non-integral exponent, `std::exp`)
  are kept abstract: the segmenter is parameterized by the functions it
  would call, so universally quantified theorems cover every interpretation.
-/

namespace ThesisModel

/-! ## Numeric model: binary32 / binary64 rounding, C integer conversions -/

/-- Fueled floor of the base-2 logarithm of a natural number (0 for `n ≤ 1`).
Structural recursion on fuel keeps the definition kernel-reducible. -/
def log2n : ℕ → ℕ → ℕ
  | 0, _ => 0
  | fuel + 1, n => if n ≤ 1 then 0 else log2n fuel (n / 2) + 1

/-- Floor of the base-2 logarithm of a natural number: `2 ^ natLog2 n ≤ n`
for `n ≥ 1`.  Fuel `n` always suffices. -/
def natLog2 (n : ℕ) : ℕ := log2n n n

/-- The rational `2 ^ e` for an integer exponent, computed through natural
powers (kernel-reducible without deep recursion). -/
def pow2Q (e : ℤ) : ℚ :=
  if 0 ≤ e then mkRat (Int.ofNat (2 ^ e.toNat)) 1
  else mkRat 1 (2 ^ (-e).toNat)

/-- Floor of the base-2 logarithm of a positive rational. -/
def floorLog2Q (q : ℚ) : ℤ :=
  let bn : ℤ := natLog2 q.num.toNat
  let bd : ℤ := natLog2 q.den
  if pow2Q (bn - bd) ≤ q then bn - bd else bn - bd - 1

/-- Round a rational to an integer, to nearest, ties to even (IEEE default). -/
def roundHalfEven (q : ℚ) : ℤ :=
  let n := ⌊q⌋
  let f := q - n
  if f < 1 / 2 then n
  else if 1 / 2 < f then n + 1
  else if 2 ∣ n then n else n + 1

/-- Round a rational to a floating-point value with a `prec`-bit significand
(round to nearest, ties to even); `prec = 24` models IEEE binary32 and
`prec = 53` models binary64 in their normal ranges. -/
def fpRound (prec : ℕ) (q : ℚ) : ℚ :=
  if q = 0 then 0
  else
    let s : ℚ := if q < 0 then -1 else 1
    let a : ℚ := |q|
    let e : ℤ := floorLog2Q a - ((prec : ℤ) - 1)
    s * (roundHalfEven (a / pow2Q e) : ℚ) * pow2Q e

/-- The value obtained by storing a real quantity in a C `float`. -/
def fl32 (q : ℚ) : ℚ := fpRound 24 q

/-- The value obtained by storing a real quantity in a C `double`. -/
def fl64 (q : ℚ) : ℚ := fpRound 53 q

/-- Conversion of a C `int` to `unsigned int` (reduction modulo `2^32`). -/
def castU32 (i : ℤ) : ℕ := (i % 2 ^ 32).toNat

/-- Accumulate decimal digits, stopping at the first non-digit
(the digit loop of C `atoi`). -/
def atoiDigits : List Char → ℤ → ℤ
  | [], acc => acc
  | c :: rest, acc =>
    if c.isDigit then atoiDigits rest (acc * 10 + ((c.toNat : ℤ) - 48)) else acc

/-- Model of C `std::atoi` on the suffix of a line: skip leading blanks,
parse an optional sign and then leading decimal digits; any other prefix
yields 0.  (Out-of-range behavior of `atoi` is undefined in C and the
embedding uses unbounded integers instead.) -/
def atoiInt (cs : List Char) : ℤ :=
  match cs.dropWhile (fun c => c = ' ' ∨ c = '\t') with
  | [] => 0
  | c :: rest =>
    if c = '-' then -atoiDigits rest 0
    else if c = '+' then atoiDigits rest 0
    else atoiDigits (c :: rest) 0

/-! ## Small list helpers shared by the embeddings -/

/-- First value stored under a key in an association list (the observable
lookup of `std::unordered_map` once the map is materialized). -/
def alookup {κ : Type} [DecidableEq κ] : List (κ × ℚ) → κ → Option ℚ
  | [], _ => none
  | kv :: t, k => if kv.1 = k then some kv.2 else alookup t k

/-- Sum of the values stored under a key (possibly several entries). -/
def sumFor {κ : Type} [DecidableEq κ] (l : List (κ × ℚ)) (k : κ) : ℚ :=
  ((l.filter (fun kv => kv.1 = k)).map (fun kv => kv.2)).sum

/-! ## CNF data model and DIMACS parser (include/thesis/cnf.hpp) -/

/-- A clause as stored by `thesis::CNF`: a list of signed literals. -/
abbrev Clause := List ℤ

/-- Observable state of a `thesis::CNF` object. -/
structure CNFModel where
  valid : Bool
  varCount : ℕ
  clauseCount : ℕ
  clauses : List Clause
deriving DecidableEq, Repr

/-- One step of the clause-literal loop of `CNF::parse_stream` (second pass):
at a token start, stop if the token begins with the character 0, otherwise
`atoi` the token and advance past it and the following blanks.  Fuel is the
line length; every iteration consumes at least one character. -/
def pclGo : ℕ → List Char → List ℤ
  | 0, _ => []
  | fuel + 1, cs =>
    match cs with
    | [] => []
    | c :: _ =>
      if c = '0' then []
      else atoiInt cs :: pclGo fuel ((cs.dropWhile (fun ch => ch ≠ ' ')).dropWhile (fun ch => ch = ' '))

/-- Literal list parsed from one clause line by `CNF::parse_stream`
(after skipping the possible initial run of spaces). -/
def parseClauseLine (cs : List Char) : List ℤ :=
  pclGo cs.length (cs.dropWhile (fun ch => ch = ' '))

/-- Clause contributed by one input line of the clause section:
empty lines and comment lines contribute nothing, and a parsed clause is
kept only when non-empty (`if (!clause.empty()) clauses.push_back(...)`). -/
def lineClause (s : List Char) : Option Clause :=
  match s with
  | [] => none
  | c :: _ =>
    if c = 'c' then none
    else
      let cl := parseClauseLine s
      if cl = [] then none else some cl

/-- Clause list accumulated by the `while (getline)` clause loop of
`CNF::parse_stream` over the lines after the problem line. -/
def parseBody (lines : List (List Char)) : List Clause :=
  lines.filterMap lineClause

/-- Skip to the end of the current token: the loop
`while (*str && *str != ' ') ++str;` of `CNF::parse_stream`. -/
def skipTok (cs : List Char) : List Char := cs.dropWhile (fun ch => ch ≠ ' ')

/-- Variable and clause counts read from the problem line by the pointer
walk of `CNF::parse_stream` (skip the `p`, one space, the `cnf` token, then
`atoi` the third token, skip it, and `atoi` the fourth). -/
def pLineCounts (line : List Char) : ℕ × ℕ :=
  let s1 := skipTok line
  let s2 := if s1.head? = some ' ' then s1.tail else s1
  let s3 := skipTok s2
  let s4 := s3.tail
  let vc := castU32 (atoiInt s4)
  let s5 := skipTok s4
  let s6 := s5.tail
  (vc, castU32 (atoiInt s6))

/-- A line skipped by the initial comment loop of `CNF::parse_stream`
(blank, or starting with the character c). -/
def skipLine (s : List Char) : Bool :=
  match s with
  | [] => true
  | c :: _ => c = 'c'

/-- Literal comparison used by `CNF::do_normalize_clauses` for sorting a
clause: by absolute value, ties by signed value (reflexive closure of the
strict source comparator, as required by the stable-sort model). -/
def litLE (a b : ℤ) : Prop :=
  a.natAbs < b.natAbs ∨ (a.natAbs = b.natAbs ∧ a ≤ b)

instance : DecidableRel litLE := fun a b => by
  unfold litLE; infer_instance

instance : IsTotal ℤ litLE :=
  ⟨by
    intro a b
    rcases Nat.lt_trichotomy a.natAbs b.natAbs with h | h | h
    · exact Or.inl (Or.inl h)
    · rcases le_total a b with h2 | h2
      · exact Or.inl (Or.inr ⟨h, h2⟩)
      · exact Or.inr (Or.inr ⟨h.symm, h2⟩)
    · exact Or.inr (Or.inl h)⟩

instance : IsTrans ℤ litLE :=
  ⟨by
    intro a b c hab hbc
    rcases hab with h | ⟨h1, h2⟩
    · rcases hbc with h' | ⟨h1', _⟩
      · exact Or.inl (h.trans h')
      · exact Or.inl (h1' ▸ h)
    · rcases hbc with h' | ⟨h1', h2'⟩
      · exact Or.inl (h1 ▸ h')
      · exact Or.inr ⟨h1.trans h1', h2.trans h2'⟩⟩

/-- Sign of a literal as computed by `do_normalize_clauses`
(`(lit < 0) ? -1 : 1`). -/
def litSign (l : ℤ) : ℤ := if l < 0 then -1 else 1

/-- Deduplication / tautology walk of `do_normalize_clauses` over a clause
sorted by absolute value: skip duplicate literals with the same sign, reject
the clause (`none`) when a literal and its negation both occur. -/
def dtGo : ℕ → ℤ → List ℤ → List ℤ → Option (List ℤ)
  | _, _, out, [] => some out
  | pa, ps, out, l :: rest =>
    if l.natAbs = pa then
      if litSign l ≠ ps then none else dtGo pa ps out rest
    else dtGo l.natAbs (litSign l) (out ++ [l]) rest

/-- Normal form of a single clause computed by `do_normalize_clauses`:
`none` when the clause is dropped (empty or tautological). -/
def normClause (c : Clause) : Option Clause :=
  match List.insertionSort litLE c with
  | [] => none
  | l :: rest => dtGo l.natAbs (litSign l) [l] rest

/-- Clause list produced by `CNF::do_normalize_clauses`. -/
def doNormalize (cs : List Clause) : List Clause :=
  cs.filterMap normClause

/-- Public `CNF::normalize_clauses`: a no-op on an invalid CNF, otherwise
normalizes the clauses and sets `clause_count` to the retained count. -/
def normalizeClauses (m : CNFModel) : CNFModel :=
  if m.valid = false then m
  else
    let cs := doNormalize m.clauses
    { m with clauses := cs, clauseCount := cs.length }

/-- One literal step of `CNF::do_compact_variables`: look the variable up in
the renaming map (an index-keyed table in the source; modelled
associatively), extend the map on first appearance, and re-sign. -/
def compactLit (st : List (ℕ × ℕ) × ℕ) (l : ℤ) : (List (ℕ × ℕ) × ℕ) × ℤ :=
  let v := l.natAbs - 1
  match st.1.lookup v with
  | some r => (st, litSign l * r)
  | none => ((st.1 ++ [(v, st.2)], st.2 + 1), litSign l * st.2)

/-- Map-accumulate of `compactLit` over one clause. -/
def compactClause (st : List (ℕ × ℕ) × ℕ) : Clause → (List (ℕ × ℕ) × ℕ) × Clause
  | [] => (st, [])
  | l :: rest =>
    let (st1, l') := compactLit st l
    let (st2, rest') := compactClause st1 rest
    (st2, l' :: rest')

/-- Map-accumulate of `compactClause` over the clause list. -/
def compactClauses (st : List (ℕ × ℕ) × ℕ) : List Clause → (List (ℕ × ℕ) × ℕ) × List Clause
  | [] => (st, [])
  | c :: rest =>
    let (st1, c') := compactClause st c
    let (st2, rest') := compactClauses st1 rest
    (st2, c' :: rest')

/-- `CNF::do_compact_variables`: renumber the variables densely from 1 in
first-appearance order and set `variable_count` to the number used. -/
def doCompact (m : CNFModel) : CNFModel :=
  let p := compactClauses ([], 1) m.clauses
  { m with clauses := p.2, varCount := p.1.2 - 1 }

/-- `CNF::parse_stream` on a list of input lines: skip blanks and comments,
require a line starting with p, read the two declared counts, parse the
clause section, then (optionally) compact and normalize.  `valid` is set
whenever the problem line is found; the declared clause count is never
compared with the number of clauses read. -/
def parseStream (lines : List (List Char)) (compact norm : Bool) : CNFModel :=
  match lines.dropWhile (fun l => skipLine l) with
  | [] => { valid := false, varCount := 0, clauseCount := 0, clauses := [] }
  | pline :: body =>
    match pline with
    | [] => { valid := false, varCount := 0, clauseCount := 0, clauses := [] }
    | c :: _ =>
      if c = 'p' then
        let (vc, cc) := pLineCounts pline
        let m0 : CNFModel :=
          { valid := true, varCount := vc, clauseCount := cc, clauses := parseBody body }
        let m1 := if compact then doCompact m0 else m0
        if norm then normalizeClauses m1 else m1
      else { valid := false, varCount := 0, clauseCount := 0, clauses := [] }

/-- Convenience wrapper taking the lines as strings. -/
def parseDimacs (lines : List String) (compact norm : Bool) : CNFModel :=
  parseStream (lines.map (fun s => s.data)) compact norm

/-! ## VIG builders (src/common/vig.cpp) -/

/-- An aggregated VIG edge (`thesis::Edge`). -/
structure Edge where
  u : ℕ
  v : ℕ
  w : ℚ
deriving DecidableEq, Repr

/-- Observable result of a VIG build (`thesis::VIG`; the
`aggregation_memory` field is compiled out in the default configuration and
not modelled). -/
structure VIGModel where
  n : ℕ
  edges : List Edge
deriving DecidableEq, Repr

/-- The exact value of `inv_binom2(s) = 2.0 / (s * (s-1))`; the `double`
division is correctly rounded, giving `fl64` of this rational. -/
def invBinom2 (s : ℕ) : ℚ := 2 / ((s : ℚ) * ((s : ℚ) - 1))

/-- Per-pair clause weight as computed by the naive builder
(a `double`). -/
def wpairD (s : ℕ) : ℚ := fl64 (invBinom2 s)

/-- Per-pair clause weight as stored by the optimized builder
(`w_table[s]`, a `float` cast of the `double` value). -/
def wpairF (s : ℕ) : ℚ := fl32 (wpairD s)

/-- A clause is processed by the builders when `2 ≤ s ≤ threshold`. -/
def keptB (τ : ℕ) (c : Clause) : Prop := 2 ≤ c.length ∧ c.length ≤ τ

instance (τ : ℕ) (c : Clause) : Decidable (keptB τ c) := by
  unfold keptB; infer_instance

/-- Zero-based variable indices of a clause (`abs(lit) - 1`). -/
def cvars (c : Clause) : List ℕ := c.map (fun l => l.natAbs - 1)

/-- Canonicalized index pairs contributed by one clause in the naive
builder: for positions `i < j`, the pair `(min, max)` of the two
variable indices. -/
def pairsDesc : List ℕ → List (ℕ × ℕ)
  | [] => []
  | a :: rest => rest.map (fun b => (min a b, max a b)) ++ pairsDesc rest

/-- Insert-or-add on the association list modelling
`agg[pack_pair(u,v)] += w` (a fresh key is appended). -/
def upsert (k : ℕ × ℕ) (w : ℚ) : List ((ℕ × ℕ) × ℚ) → List ((ℕ × ℕ) × ℚ)
  | [] => [(k, w)]
  | kv :: t => if kv.1 = k then (kv.1, kv.2 + w) :: t else kv :: upsert k w t

/-- Aggregation of one clause into the naive builder map. -/
def aggClause (wp : ℕ → ℚ) (τ : ℕ) (m : List ((ℕ × ℕ) × ℚ)) (c : Clause) :
    List ((ℕ × ℕ) × ℚ) :=
  if keptB τ c then
    (pairsDesc (cvars c)).foldl (fun mm p => upsert p (wp c.length) mm) m
  else m

/-- The naive builder aggregation map over the whole clause list. -/
def naiveAgg (wp : ℕ → ℚ) (τ : ℕ) (cs : List Clause) : List ((ℕ × ℕ) × ℚ) :=
  cs.foldl (aggClause wp τ) []

/-- Edge list materialized from the naive aggregation map. -/
def naiveEdges (wp : ℕ → ℚ) (τ : ℕ) (cs : List Clause) : List Edge :=
  (naiveAgg wp τ cs).map (fun kv => ⟨kv.1.1, kv.1.2, kv.2⟩)

/-- Reflexive closure of the final edge comparator used by both builders
when sorting is requested (weight descending, then `u`, then `v`
ascending; its ties are exact duplicates, so the stable model is exact). -/
def edgeSortLE (A B : Edge) : Prop :=
  B.w < A.w ∨ (A.w = B.w ∧ (A.u < B.u ∨ (A.u = B.u ∧ A.v ≤ B.v)))

instance : DecidableRel edgeSortLE := fun A B => by
  unfold edgeSortLE; infer_instance

/-- `build_vig_naive` parameterized by the per-pair weight function. -/
def buildVigNaiveW (wp : ℕ → ℚ) (cnf : CNFModel) (τ : ℕ)
    (sortFlag : Bool) : VIGModel :=
  let es := naiveEdges wp τ cnf.clauses
  { n := cnf.varCount,
    edges := if sortFlag then List.insertionSort edgeSortLE es else es }

/-- `thesis::build_vig_naive` (per-pair weights are `double`s). -/
def buildVigNaive (cnf : CNFModel) (τ : ℕ) (sortFlag : Bool) : VIGModel :=
  buildVigNaiveW wpairD cnf τ sortFlag

/-- Contribution of one clause-variable list to `contrib_counts[a]`:
position `i` contributes `s - 1 - i` slots (the length of the suffix). -/
def contribOfVars : List ℕ → ℕ → ℕ
  | [], _ => 0
  | b :: rest, a => (if b = a then rest.length else 0) + contribOfVars rest a

/-- `contrib_counts[a]` over the clause list (phase 1). -/
def contribC (τ : ℕ) (cs : List Clause) (a : ℕ) : ℕ :=
  (cs.map (fun c => if keptB τ c then contribOfVars (cvars c) a else 0)).sum

/-- The batch-partition loop of phase 2, over the remaining variable list,
carrying the current batch start and accumulated contribution count. -/
def batchesGo (cnt : ℕ → ℕ) (per : ℕ) (n : ℕ) :
    List ℕ → ℕ → ℕ → List (ℕ × ℕ)
  | [], start, _ => if start < n then [(start, n - 1)] else []
  | v :: vs, start, accum =>
    if per < accum + cnt v ∧ start < v then
      (start, v - 1) :: batchesGo cnt per n vs v (cnt v)
    else batchesGo cnt per n vs start (accum + cnt v)

/-- Batch list of phase 2 (inclusive index ranges). -/
def mkBatches (cnt : ℕ → ℕ) (per : ℕ) (n : ℕ) : List (ℕ × ℕ) :=
  batchesGo cnt per n (List.range n) 0 0

/-- Order in which batches are consumed and their outputs concatenated:
worker `tid` handles batch `r * T + tid` of round `r`, and the per-worker
edge buffers are concatenated worker-major at the end. -/
def batchOrder (T rounds nB : ℕ) : List ℕ :=
  (List.range T).flatMap (fun tid =>
    (List.range rounds).filterMap (fun r =>
      if r * T + tid < nB then some (r * T + tid) else none))

/-- FILL entries contributed to variable `a`'s buffer segment by one
clause-variable list: each position holding `a` appends `(b, w)` for every
later position `b`. -/
def fillVar : List ℕ → ℕ → ℚ → List (ℕ × ℚ)
  | [], _, _ => []
  | b :: rest, a, w =>
    (if b = a then rest.map (fun x => (x, w)) else []) ++ fillVar rest a w

/-- All FILL entries landing in variable `a`'s buffer segment over the
clause list (single-worker order; for several workers the entries form the
same multiset and the ACCUM sort makes the reduction insensitive to it). -/
def segEntries (wp : ℕ → ℚ) (τ : ℕ) (cs : List Clause) (a : ℕ) : List (ℕ × ℚ) :=
  cs.flatMap (fun c =>
    if keptB τ c then fillVar (cvars c) a (wp c.length) else [])

/-- Reflexive closure of the ACCUM segment comparator (`x.b < y.b`). -/
def keyLE (x y : ℕ × ℚ) : Prop := x.1 ≤ y.1

instance : DecidableRel keyLE := fun x y => by
  unfold keyLE; infer_instance

instance : IsTotal (ℕ × ℚ) keyLE :=
  ⟨fun x y => le_total x.1 y.1⟩

instance : IsTrans (ℕ × ℚ) keyLE :=
  ⟨fun _ _ _ h h' => le_trans h h'⟩

/-- Run-length reduction walk of ACCUM over a segment sorted by key:
accumulate the weight of the current key, emit on key change. -/
def rleGo : ℕ → ℚ → List (ℕ × ℚ) → List (ℕ × ℚ)
  | curr, acc, [] => [(curr, acc)]
  | curr, acc, (b, w) :: rest =>
    if b = curr then rleGo curr (acc + w) rest
    else (curr, acc) :: rleGo b w rest

/-- Run-length reduction of a (sorted) buffer segment; an empty segment is
skipped (`if (!cnt) continue`). -/
def rleSum : List (ℕ × ℚ) → List (ℕ × ℚ)
  | [] => []
  | (b, w) :: rest => rleGo b w rest

/-- ACCUM output for variable `a`: sort its segment by neighbor index,
reduce, and emit edges `(a, b, Σw)`. -/
def accumVar (wp : ℕ → ℚ) (τ : ℕ) (cs : List Clause) (a : ℕ) : List Edge :=
  (rleSum (List.insertionSort keyLE (segEntries wp τ cs a))).map
    (fun bw => ⟨a, bw.1, bw.2⟩)

/-- ACCUM output of one batch: variables in ascending order. -/
def batchEdges (wp : ℕ → ℚ) (τ : ℕ) (cs : List Clause) (se : ℕ × ℕ) : List Edge :=
  (List.range' se.1 (se.2 + 1 - se.1)).flatMap (accumVar wp τ cs)

/-- Edge list produced by the optimized builder before the optional final
sort: plan the per-thread buffer, partition the variables into batches, and
concatenate the per-batch reductions in the worker-major output order. -/
def optEdges (wp : ℕ → ℚ) (τ : ℕ) (cs : List Clause) (n B T : ℕ) : List Edge :=
  let cnt := contribC τ cs
  let total := ((List.range n).map cnt).sum
  let maxC := ((List.range n).map cnt).foldl max 0
  let userCap := min total B
  let per0 := max 1 (userCap / max 1 (T - 1))
  let per := if per0 < maxC then maxC else per0
  let bs := mkBatches cnt per n
  let rounds := (bs.length + T - 1) / T
  (batchOrder T rounds bs.length).flatMap (fun i =>
    batchEdges wp τ cs (bs.getD i (1, 0)))

/-- `build_vig_optimized` parameterized by the per-pair weight function:
an empty variable range returns an empty VIG before any argument check;
otherwise a zero buffer budget or zero thread count is an invalid-argument
error raised before construction starts. -/
def buildVigOptimizedW (wp : ℕ → ℚ) (cnf : CNFModel) (τ : ℕ)
    (B : ℕ) (sortFlag : Bool) (T : ℕ) : Except String VIGModel :=
  if cnf.varCount = 0 then Except.ok { n := 0, edges := [] }
  else if B = 0 then Except.error ("max_buffer_contributions must be > 0")
  else if T = 0 then Except.error ("num_threads must be > 0")
  else
    let es := optEdges wp τ cnf.clauses cnf.varCount B T
    Except.ok
      { n := cnf.varCount,
        edges := if sortFlag then List.insertionSort edgeSortLE es else es }

/-- `thesis::build_vig_optimized` (per-pair weights are `float`s from
`w_table`). -/
def buildVigOptimized (cnf : CNFModel) (τ : ℕ) (B : ℕ) (sortFlag : Bool)
    (T : ℕ) : Except String VIGModel :=
  buildVigOptimizedW wpairF cnf τ B sortFlag T

/-- First-match weight lookup in an edge list. -/
def lookupW : List Edge → ℕ → ℕ → Option ℚ
  | [], _, _ => none
  | e :: t, u, v => if e.u = u ∧ e.v = v then some e.w else lookupW t u v

/-- Key of an edge. -/
def ekey (e : Edge) : ℕ × ℕ := (e.u, e.v)

/-- Multiplicity with which the clause list contributes the canonical pair
key `k`: per processed clause, the number of position pairs `i < j` mapping
to `k` (the quantity the naive builder adds up). -/
def pairMult (τ : ℕ) (cs : List Clause) (k : ℕ × ℕ) : ℕ :=
  (cs.map (fun c =>
    if keptB τ c then (pairsDesc (cvars c)).count k else 0)).sum

/-- Total weight accumulated under the canonical pair key `k` over the
clause list. -/
def pairWgt (wp : ℕ → ℚ) (τ : ℕ) (cs : List Clause) (k : ℕ × ℕ) : ℚ :=
  (cs.map (fun c =>
    if keptB τ c then ((pairsDesc (cvars c)).count k : ℚ) * wp c.length
    else 0)).sum

/-- Inclusive variable index range of a batch. -/
def brange (se : ℕ × ℕ) : List ℕ := List.range' se.1 (se.2 + 1 - se.1)

/-- The concrete CNF of the weight-discrepancy counterexample: a single
ternary clause. -/
def c1cnf : CNFModel :=
  { valid := true, varCount := 3, clauseCount := 1, clauses := [[1, 2, 3]] }

/-! ## Disjoint sets (src/common/disjoint_set.cpp) and FH segmentation
(src/common/segmentation.cpp, include/thesis/segmentation.hpp) -/

/-- The root loop of `DisjointSets::find` /`find_no_compress`:
`while (root < size && parent[root] != root) root = parent[root];`.
Out-of-range reads are modelled by `getD x x`, which also stops the loop.
Fuel (the element count) bounds the walk; every parent array built by the
embedded operations is a forest, on which this bound is never reached. -/
def rootGo (par : List ℕ) : ℕ → ℕ → ℕ
  | 0, x => x
  | fuel + 1, x =>
    let p := par.getD x x
    if p = x then x else rootGo par fuel p

/-- `DisjointSets::find_no_compress`. -/
def findNC (par : List ℕ) (x : ℕ) : ℕ := rootGo par par.length x

/-- The path-compression loop of `DisjointSets::find`. -/
def compressGo (root : ℕ) : ℕ → List ℕ → ℕ → List ℕ
  | 0, par, _ => par
  | fuel + 1, par, x =>
    let p := par.getD x x
    if x < par.length ∧ p ≠ x then compressGo root fuel (par.set x root) p
    else par

/-- `DisjointSets::find`: the root together with the compressed
parent array. -/
def dsuFind (par : List ℕ) (x : ℕ) : ℕ × List ℕ :=
  let r := rootGo par par.length x
  (r, compressGo r par.length par x)

/-- `DisjointSets::unite` on the `(parent, rank, component count)` state:
the new representative together with the updated state. -/
def dsuUnite (par : List ℕ) (rk : List ℕ) (cc : ℕ) (a b : ℕ) :
    ℕ × List ℕ × List ℕ × ℕ :=
  let fa := dsuFind par a
  let fb := dsuFind fa.2 b
  let ra := fa.1
  let rb := fb.1
  let par2 := fb.2
  if ra = rb then (ra, par2, rk, cc)
  else if rk.getD ra 0 < rk.getD rb 0 then (rb, par2.set ra rb, rk, cc - 1)
  else if rk.getD rb 0 < rk.getD ra 0 then (ra, par2.set rb ra, rk, cc - 1)
  else (ra, par2.set rb ra, rk.set ra (rk.getD ra 0 + 1), cc - 1)

/-- Policy for ambiguous modularity-guard outcomes. -/
inductive AmbPolicy where
  | acceptAll
  | rejectAll
  | gateMargin
deriving DecidableEq, Repr

/-- `GraphSegmenterFH::Config`.  The `double` literals of the defaults are
idealized by the corresponding rationals. -/
structure SegConfig where
  normalizeDistances : Bool := true
  normSampleEdges : ℕ := 1000
  sizeExponent : ℚ := 6 / 5
  useModularityGuard : Bool := true
  gamma : ℚ := 1
  annealModularityGuard : Bool := true
  dqTolerance0 : ℚ := 5 / 10000
  dqVscale : ℚ := 0
  ambiguousPolicy : AmbPolicy := AmbPolicy.gateMargin
  gateMarginFrac : ℚ := 1 / 20
deriving DecidableEq, Repr

/-- Interpretations of the transcendental library calls the segmenter
makes: `std::pow` (for the gate size term) and `std::exp` (for the annealed
tolerance).  Theorems quantify over these, covering the real functions. -/
structure SegFns where
  powQ : ℚ → ℚ → ℚ
  expQ : ℚ → ℚ

/-- Observable state of a `GraphSegmenterFH` object. -/
structure SegState where
  parent : List ℕ
  rnk : List ℕ
  compCount : ℕ
  compSize : List ℕ
  maxDist : List ℚ
  compVol : List ℚ
  lbInternal : List ℚ
  sumW : ℚ
  kParam : ℚ
  dScale : ℚ
  candidates : List Edge
  lbAccepts : ℕ
  ubRejects : ℕ
  ambiguous : ℕ
deriving DecidableEq, Repr

/-- `GraphSegmenterFH::reset` applied to a fresh segmenter (the rank
array uses `unsigned char` in the source; its value range is unreachable
for any feasible input and it is modelled by `ℕ`). -/
def segReset (cfg : SegConfig) (n : ℕ) (k : ℚ) : SegState :=
  { parent := List.range n
    rnk := List.replicate n 0
    compCount := n
    compSize := List.replicate n 1
    maxDist := List.replicate n 0
    compVol := if cfg.useModularityGuard then List.replicate n 0 else []
    lbInternal := if cfg.useModularityGuard then List.replicate n 0 else []
    sumW := 0
    kParam := k
    dScale := 1
    candidates := []
    lbAccepts := 0
    ubRejects := 0
    ambiguous := 0 }

/-- `GraphSegmenterFH::gate`. -/
def segGate (fns : SegFns) (cfg : SegConfig) (st : SegState) (r : ℕ) : ℚ :=
  let sizeTerm := fns.powQ ((st.compSize.getD r 0 : ℚ)) cfg.sizeExponent
  let tau := st.kParam / (if 0 < sizeTerm then sizeTerm else 1)
  st.maxDist.getD r 0 + tau

/-- `GraphSegmenterFH::allow_merge`. -/
def allowMerge (fns : SegFns) (cfg : SegConfig) (st : SegState)
    (a b : ℕ) (d : ℚ) : Prop :=
  d ≤ min (segGate fns cfg st a) (segGate fns cfg st b)

instance (fns : SegFns) (cfg : SegConfig) (st : SegState) (a b : ℕ) (d : ℚ) :
    Decidable (allowMerge fns cfg st a b d) := by
  unfold allowMerge; infer_instance

/-- `GraphSegmenterFH::dq_tolerance`. -/
def dqTol (fns : SegFns) (cfg : SegConfig) (st : SegState) (a b : ℕ) : ℚ :=
  if cfg.annealModularityGuard = false then 0
  else
    let maxVol := max (st.compVol.getD a 0) (st.compVol.getD b 0);
    let n : ℚ := (st.compSize.length : ℚ);
    let vscale :=
      (if 0 < cfg.dqVscale then cfg.dqVscale
       else if 0 < n then max 1 (2 * st.sumW / n) else 1);
    -cfg.dqTolerance0 * fns.expQ (-maxVol / vscale)

/-- The ΔQ lower-bound formula of `GraphSegmenterFH::dq_lower_bound` (its
`m ≤ 0` early return is unreachable: the caller tests `sum_weights_ > 0`
first). -/
def dqLB (cfg : SegConfig) (st : SegState) (a b : ℕ) (abw : ℚ) : ℚ :=
  let m := st.sumW
  abw / m - cfg.gamma * st.compVol.getD a 0 * st.compVol.getD b 0 / (2 * m * m)

/-- `GraphSegmenterFH::dq_upper_bound`. -/
def dqUB (cfg : SegConfig) (st : SegState) (a b : ℕ) : ℚ :=
  let va := st.compVol.getD a 0
  let vb := st.compVol.getD b 0
  let m := st.sumW
  let cutA := max 0 (va - 2 * st.lbInternal.getD a 0)
  let cutB := max 0 (vb - 2 * st.lbInternal.getD b 0)
  let eab := min (min cutA cutB) (min va vb)
  eab / m - cfg.gamma * va * vb / (2 * m * m)

/-- `GraphSegmenterFH::accept_by_modularity_lowerbound`. -/
def lbAcceptQ (cfg : SegConfig) (st : SegState) (a b : ℕ) (abw tol : ℚ) : Prop :=
  cfg.useModularityGuard = false ∨ ¬ (0 < st.sumW) ∨ tol ≤ dqLB cfg st a b abw

instance (cfg : SegConfig) (st : SegState) (a b : ℕ) (abw tol : ℚ) :
    Decidable (lbAcceptQ cfg st a b abw tol) := by
  unfold lbAcceptQ; infer_instance

/-- `GraphSegmenterFH::reject_by_modularity_upperbound`. -/
def ubRejectQ (cfg : SegConfig) (st : SegState) (a b : ℕ) (tol : ℚ) : Prop :=
  cfg.useModularityGuard = true ∧ 0 < st.sumW ∧ dqUB cfg st a b < tol

instance (cfg : SegConfig) (st : SegState) (a b : ℕ) (tol : ℚ) :
    Decidable (ubRejectQ cfg st a b tol) := by
  unfold ubRejectQ; infer_instance

/-- Neighbor list of node `u` built by the counting sort over the sorted
edge vector (entries of `u`'s cell end up in reverse write order). -/
def nbrList (sorted : List Edge) (u : ℕ) : List (ℕ × ℚ) :=
  (sorted.flatMap (fun e =>
    (if e.u = u then [(e.v, e.w)] else []) ++
      (if e.v = u then [(e.u, e.w)] else []))).reverse

/-- The `sum_weights_to_comp` lambda: walk a node's neighbor list, adding
the weights of neighbors whose (compressing) find yields component `c`;
the parent array is threaded through the compressing finds. -/
def sumToComp (nbrs : List (ℕ × ℚ)) (par : List ℕ) (c : ℕ) : ℚ × List ℕ :=
  nbrs.foldl
    (fun acc vw =>
      let f := dsuFind acc.2 vw.1
      (if f.1 = c then acc.1 + vw.2 else acc.1, f.2))
    (0, par)

/-- The merge block at the end of the per-edge loop of
`GraphSegmenterFH::run`: unite, then update size, guard state and maximum
internal distance of the new representative from the pre-merge values. -/
def applyMerge (cfg : SegConfig) (st : SegState) (e : Edge) (a b : ℕ)
    (d : ℚ) : SegState :=
  let u := dsuUnite st.parent st.rnk st.compCount a b
  let r := u.1
  let st1 := { st with
    parent := u.2.1, rnk := u.2.2.1, compCount := u.2.2.2,
    compSize := st.compSize.set r (st.compSize.getD a 0 + st.compSize.getD b 0) }
  let st2 :=
    if cfg.useModularityGuard then
      { st1 with
        compVol := st1.compVol.set r (st1.compVol.getD a 0 + st1.compVol.getD b 0),
        lbInternal := st1.lbInternal.set r
          (st1.lbInternal.getD a 0 + st1.lbInternal.getD b 0 + e.w) }
    else st1
  let prevMax := max (st2.maxDist.getD a 0) (st2.maxDist.getD b 0)
  { st2 with maxDist := st2.maxDist.set r (max prevMax d) }

/-- Body of the per-edge loop of `GraphSegmenterFH::run` for one edge. -/
def segStep (fns : SegFns) (cfg : SegConfig) (nbrs : ℕ → List (ℕ × ℚ))
    (st : SegState) (e : Edge) : SegState :=
  if ¬ (0 < e.w) then st
  else
    let fa := dsuFind st.parent e.u
    let fb := dsuFind fa.2 e.v
    let a := fa.1
    let b := fb.1
    let st0 := { st with parent := fb.2 }
    if a = b then
      if cfg.useModularityGuard then
        { st0 with lbInternal := st0.lbInternal.set a (st0.lbInternal.getD a 0 + e.w) }
      else st0
    else
      let d := (1 / e.w) / st0.dScale
      if ¬ allowMerge fns cfg st0 a b d then
        { st0 with candidates := st0.candidates ++ [e] }
      else if cfg.useModularityGuard then
        let tol := dqTol fns cfg st0 a b
        let s1 := sumToComp (nbrs e.u) st0.parent b
        let s2 := sumToComp (nbrs e.v) s1.2 a
        let st1 := { st0 with parent := s2.2 }
        let wab := fl32 (fl32 (s1.1 + s2.1) - e.w)
        if lbAcceptQ cfg st1 a b wab tol then
          applyMerge cfg { st1 with lbAccepts := st1.lbAccepts + 1 } e a b d
        else if ubRejectQ cfg st1 a b 0 then
          { st1 with candidates := st1.candidates ++ [e],
                     ubRejects := st1.ubRejects + 1 }
        else
          let st2 := { st1 with ambiguous := st1.ambiguous + 1 }
          match cfg.ambiguousPolicy with
          | AmbPolicy.acceptAll => applyMerge cfg st2 e a b d
          | AmbPolicy.rejectAll => { st2 with candidates := st2.candidates ++ [e] }
          | AmbPolicy.gateMargin =>
            let g := min (segGate fns cfg st2 a) (segGate fns cfg st2 b)
            if 0 < g ∧ cfg.gateMarginFrac * g ≤ g - d then
              applyMerge cfg st2 e a b d
            else { st2 with candidates := st2.candidates ++ [e] }
      else applyMerge cfg st0 e a b d

/-- Reflexive closure of the sort comparator `edge_desc` of
`GraphSegmenterFH::run` (weight descending; no tie-break in the source). -/
def wDescLE (e1 e2 : Edge) : Prop := e2.w ≤ e1.w

instance : DecidableRel wDescLE := fun e1 e2 => by
  unfold wDescLE; infer_instance

instance : IsTotal Edge wDescLE :=
  ⟨fun e1 e2 => (le_total e2.w e1.w).imp id id⟩

instance : IsTrans Edge wDescLE :=
  ⟨fun _ _ _ h h' => le_trans h' h⟩

/-- `GraphSegmenterFH::run` from an arbitrary segmenter state: sort the
edges descending by weight, initialize the total weight and (with the
guard) the per-node volumes, clear the candidate list, and process every
edge; the final state and the sorted edge vector are returned. -/
def segRun (fns : SegFns) (cfg : SegConfig) (st0 : SegState)
    (edges : List Edge) : SegState × List Edge :=
  let sorted := List.insertionSort wDescLE edges
  let st1 := { st0 with sumW := 0 }
  let st2 :=
    if cfg.useModularityGuard then
      { st1 with
        sumW := (sorted.map (fun e => e.w)).sum,
        compVol := sorted.foldl
          (fun cv e =>
            let cv1 := cv.set e.u (cv.getD e.u 0 + e.w)
            cv1.set e.v (cv1.getD e.v 0 + e.w))
          st1.compVol }
    else st1
  let st3 := { st2 with candidates := [] }
  (sorted.foldl (segStep fns cfg (fun u => nbrList sorted u)) st3, sorted)

/-- A freshly constructed segmenter (`GraphSegmenterFH(n, k)` followed by
`set_config(cfg)`) running on an edge list. -/
def segRunFull (fns : SegFns) (cfg : SegConfig) (n : ℕ) (k : ℚ)
    (edges : List Edge) : SegState × List Edge :=
  segRun fns cfg (segReset cfg n k) edges

/-- `GraphSegmenterFH::k_scale`. -/
def kScale (st : SegState) : ℚ := st.dScale

/-! ## Claim-facing auxiliary definitions -/

/-- Space-separated tokens of a line (fueled; every step consumes at least
one character, so fuel equal to the length suffices). -/
def spaceTokens : ℕ → List Char → List (List Char)
  | 0, _ => []
  | fuel + 1, cs =>
    match cs.dropWhile (fun ch => ch = ' ') with
    | [] => []
    | c :: rest =>
      ((c :: rest).takeWhile (fun ch => ch ≠ ' ')) ::
        spaceTokens fuel ((c :: rest).dropWhile (fun ch => ch ≠ ' '))

/-- Space-separated tokens of a line. -/
def lineTokens (cs : List Char) : List (List Char) := spaceTokens cs.length cs

/-- The token-level reading of one clause line that C10 asserts: the
literals are the `atoi` values of the maximal run of tokens whose first
character is not the digit 0 (a terminating 0 token is not required). -/
def specLineLits (cs : List Char) : List ℤ :=
  ((lineTokens cs).takeWhile (fun t => t.head? ≠ some '0')).map atoiInt

/-- The edge order asserted by C7: weight descending with ties broken by
`(u, v)` ascending. -/
def claimEdgeOrder (e1 e2 : Edge) : Prop :=
  e2.w < e1.w ∨ (e1.w = e2.w ∧ (e1.u < e2.u ∨ (e1.u = e2.u ∧ e1.v ≤ e2.v)))

instance : DecidableRel claimEdgeOrder := fun e1 e2 => by
  unfold claimEdgeOrder; infer_instance

/-- Root of the first endpoint found while processing an edge
(`a = find(e.u)`). -/
def stepA (st : SegState) (e : Edge) : ℕ := (dsuFind st.parent e.u).1

/-- Root of the second endpoint (`b = find(e.v)`, after the compression
performed by the first find). -/
def stepB (st : SegState) (e : Edge) : ℕ :=
  (dsuFind (dsuFind st.parent e.u).2 e.v).1

/-- Parent array after both finds for an edge. -/
def stepPar (st : SegState) (e : Edge) : List ℕ :=
  (dsuFind (dsuFind st.parent e.u).2 e.v).2

/-- The quantity `w_ab_lb` the per-edge loop feeds to the lower-bound
test: the neighbor-scan weight sums into the two components, minus the
edge's own weight, with the source's two narrowing conversions through
`float`. -/
def stepWab (nbrs : ℕ → List (ℕ × ℚ)) (st : SegState) (e : Edge) : ℚ :=
  let s1 := sumToComp (nbrs e.u) (stepPar st e) (stepB st e)
  let s2 := sumToComp (nbrs e.v) s1.2 (stepA st e)
  fl32 (fl32 (s1.1 + s2.1) - e.w)

/-! ## Concrete segmentation scenario used by the C3 analysis -/

/-- Configuration with annealing off (hard zero tolerance), unit size
exponent and the modularity guard on. -/
def c3cfg : SegConfig := { annealModularityGuard := false, sizeExponent := 1 }

/-- Interpretation of `pow`/`exp` for the scenario: the size exponent is
1, where `std::pow(x, 1.0) = x` exactly; `exp` is never reached since
annealing is off. -/
def c3fns : SegFns := ⟨fun x _ => x, fun _ => 1⟩

/-- Three edges: a heavy edge merging 0 and 1, then two lighter edges
between the merged component and node 2. -/
def c3edges : List Edge := [⟨0, 1, 10⟩, ⟨0, 2, 1⟩, ⟨1, 2, 3 / 4⟩]

/-- The sorted edge vector of the scenario. -/
def c3sorted : List Edge := List.insertionSort wDescLE c3edges

/-- Neighbor table of the scenario. -/
def c3nbrs : ℕ → List (ℕ × ℚ) := fun u => nbrList c3sorted u

/-- The state with which the per-edge loop of `run` starts on the
scenario (total weight and volumes accumulated, candidates cleared),
exactly as built by `segRun`. -/
def c3init : SegState :=
  { segReset c3cfg 3 50 with
      sumW := (c3sorted.map (fun e => e.w)).sum,
      compVol := c3sorted.foldl
        (fun cv e =>
          let cv1 := cv.set e.u (cv.getD e.u 0 + e.w)
          cv1.set e.v (cv1.getD e.v 0 + e.w))
        (segReset c3cfg 3 50).compVol,
      candidates := [] }

/-- State of the scenario after the heavy edge has been processed (and its
endpoints merged). -/
def c3st1 : SegState := segStep c3fns c3cfg c3nbrs c3init ⟨0, 1, 10⟩

/-! ## Clause normalization: supporting lemmas -/

/-- A clause in the normal form produced by `do_normalize_clauses`:
non-empty, with strictly increasing absolute values. -/
def NormalForm (c : Clause) : Prop :=
  c ≠ [] ∧ c.Pairwise (fun x y => x.natAbs < y.natAbs)

theorem getD_set_self {α : Type} (l : List α) (i : ℕ) (x d : α) (h : i < l.length) :
    (l.set i x).getD i d = x := by
  induction l generalizing i with
  | nil => simp at h
  | cons a t ih =>
    cases i with
    | zero => rfl
    | succ j => simpa using ih j (by simpa using h)

theorem getD_set_ne {α : Type} (l : List α) (i j : ℕ) (x d : α) (h : i ≠ j) :
    (l.set i x).getD j d = l.getD j d := by
  induction l generalizing i j with
  | nil => simp
  | cons a t ih =>
    cases i with
    | zero => cases j with
      | zero => exact absurd rfl h
      | succ k => rfl
    | succ i' => cases j with
      | zero => rfl
      | succ k => simpa using ih i' k (fun hh => h (by omega))

theorem sumFor_append {κ : Type} [DecidableEq κ] (l₁ l₂ : List (κ × ℚ)) (k : κ) :
    sumFor (l₁ ++ l₂) k = sumFor l₁ k + sumFor l₂ k := by
  simp [sumFor, List.filter_append]

theorem alookup_append {κ : Type} [DecidableEq κ] (l₁ l₂ : List (κ × ℚ)) (k : κ) :
    alookup (l₁ ++ l₂) k =
      (if (alookup l₁ k).isSome then alookup l₁ k else alookup l₂ k) := by
  induction l₁ with
  | nil => simp [alookup]
  | cons kv t ih =>
    by_cases h : kv.1 = k
    · simp [alookup, h]
    · simp [alookup, h, ih]

theorem alookup_isSome_iff_mem {κ : Type} [DecidableEq κ]
    (l : List (κ × ℚ)) (k : κ) :
    (alookup l k).isSome = true ↔ k ∈ l.map (fun kv => kv.1) := by
  induction l with
  | nil => simp [alookup]
  | cons kv t ih =>
    by_cases h : kv.1 = k
    · simp [alookup, h]
    · simp only [alookup, h, if_false, List.map_cons, List.mem_cons, ih]
      constructor
      · intro hh
        exact Or.inr hh
      · rintro (hh | hh)
        · exact absurd hh.symm h
        · exact hh

theorem litLE_natAbs_le {a b : ℤ} (h : litLE a b) : a.natAbs ≤ b.natAbs := by
  rcases h with h | ⟨h, _⟩
  · exact Nat.le_of_lt h
  · exact Nat.le_of_eq h

theorem dtGo_normal :
    ∀ (rest : List ℤ) (pa : ℕ) (ps : ℤ) (out : List ℤ) (res : List ℤ),
      rest.Pairwise litLE →
      (∀ x ∈ rest, pa ≤ x.natAbs) →
      out ≠ [] →
      out.Pairwise (fun x y => x.natAbs < y.natAbs) →
      (∀ y ∈ out, y.natAbs ≤ pa) →
      dtGo pa ps out rest = some res →
      NormalForm res := by
  intro rest
  induction rest with
  | nil =>
    intro pa ps out res _ _ hne hpw _ hres
    simp only [dtGo] at hres
    cases hres
    exact ⟨hne, hpw⟩
  | cons l rest ih =>
    intro pa ps out res hsort hge hne hpw hle hres
    simp only [dtGo] at hres
    by_cases habs : l.natAbs = pa
    · rw [if_pos habs] at hres
      by_cases hsgn : litSign l ≠ ps
      · rw [if_pos hsgn] at hres; cases hres
      · rw [if_neg hsgn] at hres
        exact ih pa ps out res hsort.of_cons
          (fun x hx => hge x (List.mem_cons_of_mem l hx)) hne hpw hle hres
    · rw [if_neg habs] at hres
      have hlt : pa < l.natAbs :=
        lt_of_le_of_ne (hge l (List.mem_cons_self l rest)) (Ne.symm habs)
      refine ih l.natAbs (litSign l) (out ++ [l]) res hsort.of_cons ?_ (by simp) ?_ ?_ hres
      · intro x hx
        exact litLE_natAbs_le (List.rel_of_pairwise_cons hsort hx)
      · rw [List.pairwise_append]
        refine ⟨hpw, List.pairwise_singleton _ _, ?_⟩
        intro y hy z hz
        rw [List.mem_singleton] at hz
        subst hz
        exact lt_of_le_of_lt (hle y hy) hlt
      · intro y hy
        rcases List.mem_append.1 hy with hy | hy
        · exact le_of_lt (lt_of_le_of_lt (hle y hy) hlt)
        · rw [List.mem_singleton] at hy; subst hy; exact le_refl _

/-- Every clause retained by normalization is in normal form. -/
theorem normClause_normal {c res : Clause} (h : normClause c = some res) :
    NormalForm res := by
  unfold normClause at h
  have hsorted : (List.insertionSort litLE c).Pairwise litLE :=
    List.sorted_insertionSort litLE c
  cases hs : List.insertionSort litLE c with
  | nil => rw [hs] at h; cases h
  | cons l rest =>
    rw [hs] at h hsorted
    refine dtGo_normal rest l.natAbs (litSign l) [l] res hsorted.of_cons ?_ (by simp)
      (List.pairwise_singleton _ _) ?_ h
    · intro x hx
      exact litLE_natAbs_le (List.rel_of_pairwise_cons hsorted hx)
    · intro y hy
      rw [List.mem_singleton] at hy; subst hy; exact le_refl _

theorem dtGo_of_strict :
    ∀ (rest : List ℤ) (pa : ℕ) (ps : ℤ) (out : List ℤ),
      rest.Pairwise (fun x y => x.natAbs < y.natAbs) →
      (∀ x ∈ rest, pa < x.natAbs) →
      dtGo pa ps out rest = some (out ++ rest) := by
  intro rest
  induction rest with
  | nil => intro pa ps out _ _; simp [dtGo]
  | cons l rest ih =>
    intro pa ps out hpw hgt
    have habs : l.natAbs ≠ pa := (hgt l (List.mem_cons_self l rest)).ne'
    simp only [dtGo, if_neg habs]
    have := ih l.natAbs (litSign l) (out ++ [l]) hpw.of_cons
      (fun x hx => List.rel_of_pairwise_cons hpw hx)
    rw [this]
    simp

/-- Normalizing a clause already in normal form keeps it unchanged. -/
theorem normClause_of_normal {c : Clause} (h : NormalForm c) :
    normClause c = some c := by
  obtain ⟨hne, hpw⟩ := h
  have hsorted : c.Pairwise litLE := hpw.imp (fun h => Or.inl h)
  unfold normClause
  rw [List.Sorted.insertionSort_eq hsorted]
  cases c with
  | nil => exact absurd rfl hne
  | cons l rest =>
    have hh := dtGo_of_strict rest l.natAbs (litSign l) [l] hpw.of_cons
      (fun x hx => List.rel_of_pairwise_cons hpw hx)
    simpa using hh

theorem filterMap_idem {α : Type} (f : α → Option α) (l : List α)
    (h : ∀ x ∈ l.filterMap f, f x = some x) :
    (l.filterMap f).filterMap f = l.filterMap f := by
  induction l with
  | nil => rfl
  | cons a t ih =>
    cases hfa : f a with
    | none =>
      rw [List.filterMap_cons_none hfa] at h ⊢
      exact ih h
    | some b =>
      rw [List.filterMap_cons_some hfa] at h ⊢
      rw [List.filterMap_cons_some (h b (List.mem_cons_self b _))]
      rw [ih (fun x hx => h x (List.mem_cons_of_mem b hx))]

/-- `do_normalize_clauses` is idempotent on clause lists. -/
theorem doNormalize_idem (cs : List Clause) :
    doNormalize (doNormalize cs) = doNormalize cs := by
  unfold doNormalize
  refine filterMap_idem normClause cs ?_
  intro c hc
  obtain ⟨c0, _, hc0⟩ := List.mem_filterMap.1 hc
  exact normClause_of_normal (normClause_normal hc0)

/-! ## Clause-line parsing: supporting lemmas -/

theorem dropWhile_head_false {α : Type} (p : α → Bool) :
    ∀ (l : List α) {c : α} {rest : List α}, l.dropWhile p = c :: rest → p c = false := by
  intro l
  induction l with
  | nil => intro c rest h; cases h
  | cons a t ih =>
    intro c rest h
    rw [List.dropWhile_cons] at h
    by_cases hp : p a = true
    · rw [if_pos hp] at h
      exact ih h
    · rw [if_neg hp] at h
      cases h
      exact Bool.eq_false_iff.2 hp

theorem atoiDigits_takeWhile :
    ∀ (t : List Char) (acc : ℤ),
      atoiDigits t acc = atoiDigits (t.takeWhile (fun ch => ch ≠ ' ')) acc := by
  intro t
  induction t with
  | nil => intro acc; rfl
  | cons c t ih =>
    intro acc
    by_cases hcs : c = ' '
    · subst hcs
      have hdig : (' ' : Char).isDigit = false := rfl
      simp [atoiDigits, hdig, List.takeWhile_cons]
    · have htk : (c :: t).takeWhile (fun ch => (ch ≠ ' ' : Bool)) =
          c :: t.takeWhile (fun ch => (ch ≠ ' ' : Bool)) := by
        simp [List.takeWhile_cons, hcs]
      rw [htk]
      simp only [atoiDigits]
      by_cases hd : c.isDigit
      · rw [if_pos hd, if_pos hd]
        exact ih _
      · rw [if_neg hd, if_neg hd]

/-- Reading `atoi` at a token start in a tab-free line yields the same
value as reading it on the token alone. -/
theorem atoiInt_takeWhile (cs : List Char)
    (htab : ∀ ch ∈ cs, ch ≠ '\t') (hsp : cs.head? ≠ some ' ') :
    atoiInt cs = atoiInt (cs.takeWhile (fun ch => ch ≠ ' ')) := by
  cases cs with
  | nil => rfl
  | cons c t =>
    have hc : c ≠ ' ' := by
      intro hh; exact hsp (by rw [hh]; rfl)
    have hct : c ≠ '\t' := htab c (List.mem_cons_self _ _)
    have hblank : (decide (c = ' ' ∨ c = '\t')) = false := by
      simp [hc, hct]
    have htk : (c :: t).takeWhile (fun ch => (ch ≠ ' ' : Bool)) =
        c :: t.takeWhile (fun ch => (ch ≠ ' ' : Bool)) := by
      simp [List.takeWhile_cons, hc]
    unfold atoiInt
    rw [htk]
    simp only [List.dropWhile_cons, hblank, Bool.false_eq_true, if_false]
    by_cases hminus : c = '-'
    · simp only [hminus, if_pos rfl, if_true, neg_inj]
      simpa using atoiDigits_takeWhile t 0
    · by_cases hplus : c = '+'
      · simp only [hminus, hplus, if_neg, if_pos rfl, if_false]
        simpa using atoiDigits_takeWhile t 0
      · simp only [if_neg hminus, if_neg hplus]
        simp only [atoiDigits]
        by_cases hd : c.isDigit
        · rw [if_pos hd, if_pos hd]
          exact atoiDigits_takeWhile t _
        · rw [if_neg hd, if_neg hd]

/-- The clause-literal loop of `parse_stream` reads exactly the `atoi`
values of the maximal prefix of space-separated tokens whose first
character is not 0 (on tab-free lines, where token values are
self-contained). -/
theorem pclGo_tokens :
    ∀ (fuel : ℕ) (cs : List Char), cs.length ≤ fuel → (∀ ch ∈ cs, ch ≠ '\t') →
      pclGo fuel (cs.dropWhile (fun ch => ch = ' ')) =
        ((spaceTokens fuel cs).takeWhile (fun t => t.head? ≠ some '0')).map atoiInt := by
  intro fuel
  induction fuel with
  | zero =>
    intro cs hlen _
    have hnil : cs = [] := List.length_eq_zero.1 (Nat.le_zero.1 hlen)
    subst hnil
    rfl
  | succ f ih =>
    intro cs hlen htab
    cases hdrop : cs.dropWhile (fun ch => (ch = ' ' : Bool)) with
    | nil =>
      simp [pclGo, spaceTokens, hdrop]
    | cons c rest =>
      have hc : c ≠ ' ' := by
        have := dropWhile_head_false (fun ch => (ch = ' ' : Bool)) cs hdrop
        simpa using this
      have hsub : (c :: rest) ⊆ cs := by
        rw [← hdrop]
        exact List.dropWhile_subset _
      have htab' : ∀ ch ∈ c :: rest, ch ≠ '\t' := fun ch hch => htab ch (hsub hch)
      have hlen' : (c :: rest).length ≤ f + 1 := by
        rw [← hdrop]
        exact le_trans (List.dropWhile_sublist _).length_le hlen
      have htok : (c :: rest).takeWhile (fun ch => (ch ≠ ' ' : Bool)) =
          c :: rest.takeWhile (fun ch => (ch ≠ ' ' : Bool)) := by
        simp [List.takeWhile_cons, hc]
      have hnext : (c :: rest).dropWhile (fun ch => (ch ≠ ' ' : Bool)) =
          rest.dropWhile (fun ch => (ch ≠ ' ' : Bool)) := by
        simp [List.dropWhile_cons, hc]
      simp only [spaceTokens, hdrop]
      rw [htok, List.takeWhile_cons, List.head?_cons]
      by_cases h0 : c = '0'
      · subst h0
        have hcond : (decide ((some '0' : Option Char) ≠ some '0')) = false := by simp
        rw [hcond]
        simp [pclGo]
      · have hcond : (decide ((some c : Option Char) ≠ some '0')) = true := by simp [h0]
        rw [hcond, if_pos rfl]
        have lhs_eq : pclGo (f + 1) (c :: rest) =
            atoiInt (c :: rest) ::
              pclGo f (((c :: rest).dropWhile (fun ch => (ch ≠ ' ' : Bool))).dropWhile
                (fun ch => (ch = ' ' : Bool))) := by
          simp [pclGo, h0]
        rw [lhs_eq, List.map_cons]
        have hlen2 : ((c :: rest).dropWhile (fun ch => (ch ≠ ' ' : Bool))).length ≤ f := by
          rw [hnext]
          exact le_trans (List.dropWhile_sublist _).length_le (by simpa using hlen')
        have htab2 : ∀ ch ∈ (c :: rest).dropWhile (fun ch => (ch ≠ ' ' : Bool)),
            ch ≠ '\t' := fun ch hch => htab' ch (List.dropWhile_subset _ hch)
        have heq : atoiInt (c :: rest) =
            atoiInt (c :: rest.takeWhile (fun ch => (ch ≠ ' ' : Bool))) := by
          rw [atoiInt_takeWhile (c :: rest) htab' (by simp [hc]), htok]
        rw [heq, ih _ hlen2 htab2]

/-- The parser lemma in its final form:
`parseClauseLine` equals the token-level reading on tab-free lines. -/
theorem parseClauseLine_tokens (cs : List Char) (htab : ∀ ch ∈ cs, ch ≠ '\t') :
    parseClauseLine cs = specLineLits cs :=
  pclGo_tokens cs.length cs (le_refl _) htab

/-! ## Segmenter state invariants -/

theorem applyMerge_dScale (cfg : SegConfig) (st : SegState) (e : Edge)
    (a b : ℕ) (d : ℚ) : (applyMerge cfg st e a b d).dScale = st.dScale := by
  unfold applyMerge
  by_cases h : cfg.useModularityGuard <;> simp [h]

theorem segStep_dScale (fns : SegFns) (cfg : SegConfig)
    (nbrs : ℕ → List (ℕ × ℚ)) (st : SegState) (e : Edge) :
    (segStep fns cfg nbrs st e).dScale = st.dScale := by
  unfold segStep
  by_cases hw : 0 < e.w
  · simp only [hw, not_true, if_neg, ite_false, if_false]
    by_cases hab : (dsuFind st.parent e.u).1 = (dsuFind (dsuFind st.parent e.u).2 e.v).1
    · simp only [hab, if_pos rfl, ite_true]
      by_cases hg : cfg.useModularityGuard <;> simp [hg]
    · simp only [if_neg hab]
      split
      · rfl
      · by_cases hg : cfg.useModularityGuard
        · simp only [hg, ite_true]
          split
          · exact applyMerge_dScale ..
          · split
            · rfl
            · split
              · exact applyMerge_dScale ..
              · rfl
              · split
                · exact applyMerge_dScale ..
                · rfl
        · simp only [hg, ite_false]
          exact applyMerge_dScale ..
  · simp [hw]

theorem foldl_segStep_dScale (fns : SegFns) (cfg : SegConfig)
    (nbrs : ℕ → List (ℕ × ℚ)) :
    ∀ (l : List Edge) (st : SegState),
      (l.foldl (segStep fns cfg nbrs) st).dScale = st.dScale := by
  intro l
  induction l with
  | nil => intro st; rfl
  | cons e t ih =>
    intro st
    rw [List.foldl_cons, ih, segStep_dScale]

/-! ## Claim theorems -/

/-- C2 (code bug): `GraphSegmenterFH::run` never computes the distance
normalization scale: whatever the configuration (in particular with
`normalize_distances = true`, its default, and any `norm_sample_edges`),
the scale left in the state is the constant 1 set by `reset`, and
`k_scale()` returns 1 rather than the median of `1/w` over the top sampled
edges.  On the failing input `edges = [(0,1,2)]` the documented behavior
would give `k_scale() = 1/2`. -/
theorem claim_C2_d_scale_never_computed :
    (∀ (fns : SegFns) (cfg : SegConfig) (n : ℕ) (k : ℚ) (edges : List Edge),
      kScale (segRunFull fns cfg n k edges).1 = 1) ∧
    kScale (segRunFull ⟨fun x _ => x, fun _ => 1⟩ {} 2 1 [⟨0, 1, 2⟩]).1 ≠ 1 / 2 := by
  constructor
  · intro fns cfg n k edges
    unfold kScale segRunFull segRun
    by_cases hg : cfg.useModularityGuard
    · simp only [hg, ite_true]
      rw [foldl_segStep_dScale]
      rfl
    · simp only [hg, ite_false]
      rw [foldl_segStep_dScale]
      rfl
  · with_unfolding_all decide

/-- C9: clause normalization is idempotent: normalizing a CNF twice leaves
exactly the same clause list and `clause_count` as normalizing once (this
also holds vacuously for invalid CNFs, where `normalize_clauses` is a
no-op). -/
theorem claim_C9_normalize_idempotent (m : CNFModel) :
    normalizeClauses (normalizeClauses m) = normalizeClauses m := by
  unfold normalizeClauses
  by_cases hv : m.valid = false
  · simp [hv]
  · simp [hv, doNormalize_idem]

/-- C10: the DIMACS clause reader treats each non-comment, non-empty line
as at most one clause; on (tab-free) lines the clause consists of the
`atoi` values of the maximal prefix of space-separated tokens whose first
character is not 0 — so the clause ends at the first such token or at the
end of the line, a terminating 0 token is not required, and a clause whose
literals span two lines yields two separate clauses, as on the lines
`1 2` and `3 4 0`. -/
theorem claim_C10_line_oriented_clauses :
    (∀ cs : List Char, (∀ ch ∈ cs, ch ≠ '\t') →
      parseClauseLine cs = specLineLits cs) ∧
    parseBody ["1 2".data, "3 4 0".data] = [[1, 2], [3, 4]] ∧
    (∀ lines : List (List Char), (parseBody lines).length ≤ lines.length) := by
  refine ⟨parseClauseLine_tokens, by decide, ?_⟩
  intro lines
  exact List.length_filterMap_le _ _

/-- C10 witness: the hypothesis of the first part is satisfiable (a
concrete tab-free line) and the characterization evaluates on it. -/
theorem claim_C10_witness :
    (∀ ch ∈ "1 2 0".data, ch ≠ '\t') ∧
      parseClauseLine "1 2 0".data = specLineLits "1 2 0".data :=
  ⟨by decide, claim_C10_line_oriented_clauses.1 "1 2 0".data (by decide)⟩

theorem doCompact_valid (m : CNFModel) : (doCompact m).valid = m.valid := rfl

theorem normalizeClauses_valid (m : CNFModel) :
    (normalizeClauses m).valid = m.valid := by
  unfold normalizeClauses
  by_cases hv : m.valid = false
  · simp [hv]
  · simp [hv]

/-- C4 (amended): the parser never compares the declared clause count with
the number of clauses encountered; whenever the first non-blank,
non-comment line starts with p, `is_valid()` is true — whatever the
declared counts, the clause section and the compaction/normalization
flags. -/
theorem claim_C4_mismatch_still_valid
    (pre : List (List Char)) (pl : List Char) (body : List (List Char))
    (cf nf : Bool) (hpre : ∀ l ∈ pre, skipLine l = true)
    (hp : pl.head? = some 'p') :
    (parseStream (pre ++ pl :: body) cf nf).valid = true := by
  obtain ⟨t, rfl⟩ : ∃ t, pl = 'p' :: t := by
    cases pl with
    | nil => cases hp
    | cons c t =>
      refine ⟨t, ?_⟩
      have : c = 'p' := by simpa using hp
      rw [this]
  have hskip : skipLine ('p' :: t) = false := rfl
  have hdrop : (pre ++ ('p' :: t) :: body).dropWhile (fun l => skipLine l) =
      ('p' :: t) :: body := by
    induction pre with
    | nil => simp [List.dropWhile_cons, hskip]
    | cons l pre' ih =>
      rw [List.cons_append, List.dropWhile_cons]
      rw [hpre l (List.mem_cons_self _ _)]
      exact ih (fun x hx => hpre x (List.mem_cons_of_mem _ hx))
  unfold parseStream
  rw [hdrop]
  dsimp only
  have hpp : (('p' : Char) = 'p') := rfl
  rw [if_pos hpp]
  cases nf with
  | false =>
    rw [if_neg (by simp)]
    cases cf with
    | false => rfl
    | true => rfl
  | true =>
    rw [if_pos rfl, normalizeClauses_valid]
    cases cf with
    | false => rfl
    | true => rfl

/-- C4 witness: a concrete input whose declared clause count (3) differs
from the single clause encountered still parses as valid. -/
theorem claim_C4_witness :
    (∀ l ∈ ([] : List (List Char)), skipLine l = true) ∧
      ("p cnf 2 3".data.head? = some 'p') ∧
      (parseStream ([] ++ "p cnf 2 3".data :: ["1 2 0".data]) false false).valid = true :=
  ⟨by decide, by decide,
    claim_C4_mismatch_still_valid [] "p cnf 2 3".data ["1 2 0".data] false false
      (by decide) (by decide)⟩

set_option maxRecDepth 4000 in
/-- C4 counterexample: on the input `p cnf 2 3` / `1 2 0` the declared
clause count (3) differs from the clauses encountered (1), yet the CNF is
valid and `build_vig_naive` runs on it without refusing, producing the
edge `(0, 1, 1)`. -/
theorem claim_C4_counterexample :
    (parseDimacs ["p cnf 2 3", "1 2 0"] false false).valid = true ∧
    (parseDimacs ["p cnf 2 3", "1 2 0"] false false).clauseCount = 3 ∧
    (parseDimacs ["p cnf 2 3", "1 2 0"] false false).clauses.length = 1 ∧
    (buildVigNaive (parseDimacs ["p cnf 2 3", "1 2 0"] false false) 10 false).edges =
      [⟨0, 1, 1⟩] := by
  with_unfolding_all decide

/-- C5 (amended): for a CNF with at least one variable, a zero buffer
budget or zero thread count makes the optimized builder fail with an
invalid-argument error before any construction work, with no partial
result; a CNF with zero variables short-circuits to an empty VIG before
these argument checks (see the counterexample). -/
theorem claim_C5_invalid_args_rejected
    (cnf : CNFModel) (τ B T : ℕ) (sf : Bool)
    (hn : 1 ≤ cnf.varCount) (h : B = 0 ∨ T = 0) :
    buildVigOptimized cnf τ B sf T =
      Except.error (if B = 0 then "max_buffer_contributions must be > 0"
        else "num_threads must be > 0") := by
  unfold buildVigOptimized buildVigOptimizedW
  have hn0 : ¬ (cnf.varCount = 0) := by omega
  rw [if_neg hn0]
  by_cases hB : B = 0
  · rw [if_pos hB, if_pos hB]
  · have hT : T = 0 := h.resolve_left hB
    rw [if_neg hB, if_pos hT, if_neg hB]

/-- C5 witness: the amended statement applies to a one-variable CNF with a
zero buffer budget. -/
theorem claim_C5_witness :
    1 ≤ (CNFModel.mk true 1 0 []).varCount ∧
      buildVigOptimized (CNFModel.mk true 1 0 []) 5 0 false 7 =
        Except.error (if (0 : ℕ) = 0 then "max_buffer_contributions must be > 0"
          else "num_threads must be > 0") :=
  ⟨by decide,
    claim_C5_invalid_args_rejected (CNFModel.mk true 1 0 []) 5 0 7 false
      (by decide) (Or.inl rfl)⟩

/-- C5 counterexample: on a CNF with zero variables the optimized builder
returns an empty VIG without raising any error, even when
`max_buffer_contributions = 0`, because the `n == 0` shortcut precedes the
argument checks. -/
theorem claim_C5_counterexample :
    buildVigOptimized (CNFModel.mk true 0 0 []) 5 0 false 7 =
      Except.ok { n := 0, edges := [] } := rfl

/-- C7 (amended): `run` leaves the edge vector sorted descending by weight
(a permutation of the input); the comparator carries no tie-break, so no
particular order among equal-weight edges is guaranteed (see the
counterexample for the claimed `(u,v)`-ascending tie order). -/
theorem claim_C7_sorted_descending (fns : SegFns) (cfg : SegConfig)
    (n : ℕ) (k : ℚ) (E : List Edge) :
    ((segRunFull fns cfg n k E).2).Pairwise wDescLE ∧
      ((segRunFull fns cfg n k E).2).Perm E :=
  ⟨List.sorted_insertionSort wDescLE E, List.perm_insertionSort wDescLE E⟩

theorem rootGo_self (par : List ℕ) (x : ℕ) (h : par.getD x x = x) :
    ∀ f, rootGo par f x = x
  | 0 => rfl
  | f + 1 => by
    simp only [rootGo]
    rw [h]
    simp

theorem compressGo_self (par : List ℕ) (root x : ℕ) (h : par.getD x x = x) :
    ∀ f, compressGo root f par x = par
  | 0 => rfl
  | f + 1 => by
    simp only [compressGo]
    rw [h]
    simp

/-- `find` on a root is the identity, with no compression. -/
theorem dsuFind_root (par : List ℕ) (x : ℕ) (h : par.getD x x = x) :
    dsuFind par x = (x, par) := by
  simp only [dsuFind]
  rw [rootGo_self par x h, compressGo_self par x x h]

/-- `unite` on two distinct roots resolves to the union-by-rank case
split. -/
theorem dsuUnite_of_roots (par rk : List ℕ) (cc a b : ℕ)
    (ha : par.getD a a = a) (hb : par.getD b b = b) (hab : a ≠ b) :
    dsuUnite par rk cc a b =
      (if rk.getD a 0 < rk.getD b 0 then (b, par.set a b, rk, cc - 1)
       else if rk.getD b 0 < rk.getD a 0 then (a, par.set b a, rk, cc - 1)
       else (a, par.set b a, rk.set a (rk.getD a 0 + 1), cc - 1)) := by
  unfold dsuUnite
  rw [dsuFind_root par a ha]
  simp only
  rw [dsuFind_root par b hb]
  simp only [if_neg hab]

/-- C8: after an accepted merge of distinct roots `a` and `b` through an
edge of weight `w` at normalized distance `d`, the new representative `r`
satisfies `size[r] = size[a] + size[b]`,
`max_dist[r] ≥ max(max_dist[a], max_dist[b], d)`, and — when the
modularity guard is enabled — `vol[r] = vol[a] + vol[b]` and
`internal_lb[r] = internal_lb[a] + internal_lb[b] + w`, all right-hand
sides read from the pre-merge state. -/
theorem claim_C8_merge_state_updates (cfg : SegConfig) (st : SegState)
    (e : Edge) (a b : ℕ) (d : ℚ)
    (hab : a ≠ b)
    (haroot : st.parent.getD a a = a) (hbroot : st.parent.getD b b = b)
    (has : a < st.compSize.length) (hbs : b < st.compSize.length)
    (ham : a < st.maxDist.length) (hbm : b < st.maxDist.length)
    (hav : a < st.compVol.length) (hbv : b < st.compVol.length)
    (hal : a < st.lbInternal.length) (hbl : b < st.lbInternal.length) :
    (applyMerge cfg st e a b d).compSize.getD
        ((dsuUnite st.parent st.rnk st.compCount a b).1) 0 =
      st.compSize.getD a 0 + st.compSize.getD b 0 ∧
    st.maxDist.getD a 0 ≤ (applyMerge cfg st e a b d).maxDist.getD
        ((dsuUnite st.parent st.rnk st.compCount a b).1) 0 ∧
    st.maxDist.getD b 0 ≤ (applyMerge cfg st e a b d).maxDist.getD
        ((dsuUnite st.parent st.rnk st.compCount a b).1) 0 ∧
    d ≤ (applyMerge cfg st e a b d).maxDist.getD
        ((dsuUnite st.parent st.rnk st.compCount a b).1) 0 ∧
    (cfg.useModularityGuard = true →
      (applyMerge cfg st e a b d).compVol.getD
          ((dsuUnite st.parent st.rnk st.compCount a b).1) 0 =
        st.compVol.getD a 0 + st.compVol.getD b 0 ∧
      (applyMerge cfg st e a b d).lbInternal.getD
          ((dsuUnite st.parent st.rnk st.compCount a b).1) 0 =
        st.lbInternal.getD a 0 + st.lbInternal.getD b 0 + e.w) := by
  have hu := dsuUnite_of_roots st.parent st.rnk st.compCount a b haroot hbroot hab
  have hr : (dsuUnite st.parent st.rnk st.compCount a b).1 = a ∨
      (dsuUnite st.parent st.rnk st.compCount a b).1 = b := by
    rw [hu]
    by_cases h1 : st.rnk.getD a 0 < st.rnk.getD b 0
    · rw [if_pos h1]; exact Or.inr rfl
    · rw [if_neg h1]
      by_cases h2 : st.rnk.getD b 0 < st.rnk.getD a 0
      · rw [if_pos h2]; exact Or.inl rfl
      · rw [if_neg h2]; exact Or.inl rfl
  have hrs : (dsuUnite st.parent st.rnk st.compCount a b).1 < st.compSize.length := by
    rcases hr with h | h <;> rw [h] <;> assumption
  have hrm : (dsuUnite st.parent st.rnk st.compCount a b).1 < st.maxDist.length := by
    rcases hr with h | h <;> rw [h] <;> assumption
  have hrv : (dsuUnite st.parent st.rnk st.compCount a b).1 < st.compVol.length := by
    rcases hr with h | h <;> rw [h] <;> assumption
  have hrl : (dsuUnite st.parent st.rnk st.compCount a b).1 < st.lbInternal.length := by
    rcases hr with h | h <;> rw [h] <;> assumption
  have hsize : (applyMerge cfg st e a b d).compSize =
      st.compSize.set ((dsuUnite st.parent st.rnk st.compCount a b).1)
        (st.compSize.getD a 0 + st.compSize.getD b 0) := by
    by_cases hg : cfg.useModularityGuard = true <;> simp [applyMerge, hg]
  have hmax : (applyMerge cfg st e a b d).maxDist =
      st.maxDist.set ((dsuUnite st.parent st.rnk st.compCount a b).1)
        (max (max (st.maxDist.getD a 0) (st.maxDist.getD b 0)) d) := by
    by_cases hg : cfg.useModularityGuard = true <;> simp [applyMerge, hg]
  refine ⟨?_, ?_, ?_, ?_, ?_⟩
  · rw [hsize, getD_set_self _ _ _ _ hrs]
  · rw [hmax, getD_set_self _ _ _ _ hrm]
    exact le_max_of_le_left (le_max_left _ _)
  · rw [hmax, getD_set_self _ _ _ _ hrm]
    exact le_max_of_le_left (le_max_right _ _)
  · rw [hmax, getD_set_self _ _ _ _ hrm]
    exact le_max_right _ _
  · intro hg
    have hvol : (applyMerge cfg st e a b d).compVol =
        st.compVol.set ((dsuUnite st.parent st.rnk st.compCount a b).1)
          (st.compVol.getD a 0 + st.compVol.getD b 0) := by
      simp [applyMerge, hg]
    have hlb : (applyMerge cfg st e a b d).lbInternal =
        st.lbInternal.set ((dsuUnite st.parent st.rnk st.compCount a b).1)
          (st.lbInternal.getD a 0 + st.lbInternal.getD b 0 + e.w) := by
      simp [applyMerge, hg]
    exact ⟨by rw [hvol, getD_set_self _ _ _ _ hrv],
      by rw [hlb, getD_set_self _ _ _ _ hrl]⟩

/-- C8 witness: the merge-update equations evaluate on a concrete
two-node state. -/
theorem claim_C8_witness :
    ((0 : ℕ) ≠ 1) ∧
    ((applyMerge {} (segReset {} 2 50) ⟨0, 1, 2⟩ 0 1 (1 / 2)).compSize.getD
        ((dsuUnite (segReset {} 2 50).parent (segReset {} 2 50).rnk
          (segReset {} 2 50).compCount 0 1).1) 0 =
      (segReset {} 2 50).compSize.getD 0 0 + (segReset {} 2 50).compSize.getD 1 0 ∧
    (segReset {} 2 50).maxDist.getD 0 0 ≤
      (applyMerge {} (segReset {} 2 50) ⟨0, 1, 2⟩ 0 1 (1 / 2)).maxDist.getD
        ((dsuUnite (segReset {} 2 50).parent (segReset {} 2 50).rnk
          (segReset {} 2 50).compCount 0 1).1) 0 ∧
    (segReset {} 2 50).maxDist.getD 1 0 ≤
      (applyMerge {} (segReset {} 2 50) ⟨0, 1, 2⟩ 0 1 (1 / 2)).maxDist.getD
        ((dsuUnite (segReset {} 2 50).parent (segReset {} 2 50).rnk
          (segReset {} 2 50).compCount 0 1).1) 0 ∧
    (1 : ℚ) / 2 ≤
      (applyMerge {} (segReset {} 2 50) ⟨0, 1, 2⟩ 0 1 (1 / 2)).maxDist.getD
        ((dsuUnite (segReset {} 2 50).parent (segReset {} 2 50).rnk
          (segReset {} 2 50).compCount 0 1).1) 0 ∧
    (SegConfig.useModularityGuard {} = true →
      (applyMerge {} (segReset {} 2 50) ⟨0, 1, 2⟩ 0 1 (1 / 2)).compVol.getD
          ((dsuUnite (segReset {} 2 50).parent (segReset {} 2 50).rnk
            (segReset {} 2 50).compCount 0 1).1) 0 =
        (segReset {} 2 50).compVol.getD 0 0 + (segReset {} 2 50).compVol.getD 1 0 ∧
      (applyMerge {} (segReset {} 2 50) ⟨0, 1, 2⟩ 0 1 (1 / 2)).lbInternal.getD
          ((dsuUnite (segReset {} 2 50).parent (segReset {} 2 50).rnk
            (segReset {} 2 50).compCount 0 1).1) 0 =
        (segReset {} 2 50).lbInternal.getD 0 0 +
          (segReset {} 2 50).lbInternal.getD 1 0 + (Edge.mk 0 1 2).w)) :=
  ⟨by decide,
    claim_C8_merge_state_updates {} (segReset {} 2 50) ⟨0, 1, 2⟩ 0 1 (1 / 2)
      (by decide) (by with_unfolding_all decide) (by with_unfolding_all decide)
      (by with_unfolding_all decide) (by with_unfolding_all decide)
      (by with_unfolding_all decide) (by with_unfolding_all decide)
      (by with_unfolding_all decide) (by with_unfolding_all decide)
      (by with_unfolding_all decide) (by with_unfolding_all decide)⟩

theorem orderedInsert_of_forall {α : Type} (r : α → α → Prop) [DecidableRel r]
    (a : α) (M : List α) (h : ∀ c ∈ M, r a c) :
    M.orderedInsert r a = a :: M := by
  cases M with
  | nil => rfl
  | cons b L => exact List.orderedInsert_of_le r L (h b (List.mem_cons_self b L))

/-- Filtering commutes with an ordered insertion into a sorted list. -/
theorem filter_orderedInsert {α : Type} (r : α → α → Prop) [DecidableRel r]
    [IsTrans α r] (p : α → Bool) (a : α) :
    ∀ L : List α, L.Sorted r →
      (L.orderedInsert r a).filter p =
        if p a then (L.filter p).orderedInsert r a else L.filter p := by
  intro L
  induction L with
  | nil =>
    intro _
    simp only [List.orderedInsert, List.filter]
    by_cases hpa : p a <;> simp [hpa]
  | cons b L' ih =>
    intro hsort
    by_cases hab : r a b
    · rw [List.orderedInsert_of_le r L' hab]
      by_cases hpa : p a
      · rw [List.filter_cons_of_pos hpa, if_pos hpa]
        rw [orderedInsert_of_forall r a ((b :: L').filter p)]
        intro c hc
        have hc' : c ∈ b :: L' := List.mem_of_mem_filter hc
        rcases List.mem_cons.1 hc' with h | h
        · exact h ▸ hab
        · exact Trans.trans hab (List.rel_of_sorted_cons hsort c h)
      · rw [List.filter_cons_of_neg (by simpa using hpa), if_neg hpa]
    · have hoi : (b :: L').orderedInsert r a = b :: L'.orderedInsert r a := by
        simp [List.orderedInsert, hab]
      rw [hoi]
      by_cases hpb : p b
      · rw [List.filter_cons_of_pos hpb, ih hsort.of_cons]
        by_cases hpa : p a
        · rw [if_pos hpa, if_pos hpa, List.filter_cons_of_pos hpb]
          simp [List.orderedInsert, hab]
        · rw [if_neg hpa, if_neg hpa, List.filter_cons_of_pos hpb]
      · rw [List.filter_cons_of_neg (by simpa using hpb), ih hsort.of_cons]
        by_cases hpa : p a
        · rw [if_pos hpa, if_pos hpa, List.filter_cons_of_neg (by simpa using hpb)]
        · rw [if_neg hpa, if_neg hpa, List.filter_cons_of_neg (by simpa using hpb)]

/-- Filtering commutes with the stable insertion sort (the model of
`std::sort`). -/
theorem filter_insertionSort {α : Type} (r : α → α → Prop) [DecidableRel r]
    [IsTotal α r] [IsTrans α r] (p : α → Bool) :
    ∀ l : List α, (l.insertionSort r).filter p = (l.filter p).insertionSort r := by
  intro l
  induction l with
  | nil => rfl
  | cons a l ih =>
    have h1 : ((a :: l).insertionSort r).filter p =
        if p a then ((l.insertionSort r).filter p).orderedInsert r a
        else (l.insertionSort r).filter p :=
      filter_orderedInsert r p a (l.insertionSort r) (List.sorted_insertionSort r l)
    rw [h1, ih]
    by_cases hpa : p a
    · rw [if_pos hpa, List.filter_cons_of_pos hpa]
      rfl
    · rw [if_neg hpa, List.filter_cons_of_neg (by simpa using hpa)]

theorem segStep_nonpos (fns : SegFns) (cfg : SegConfig)
    (nbrs : ℕ → List (ℕ × ℚ)) (st : SegState) (e : Edge) (h : ¬ 0 < e.w) :
    segStep fns cfg nbrs st e = st := by
  simp [segStep, h]

/-- With the modularity guard disabled the neighbor table is never
consulted. -/
theorem segStep_nbrs_irrel (fns : SegFns) (cfg : SegConfig)
    (nbrs nbrs' : ℕ → List (ℕ × ℚ)) (st : SegState) (e : Edge)
    (hg : cfg.useModularityGuard = false) :
    segStep fns cfg nbrs st e = segStep fns cfg nbrs' st e := by
  unfold segStep
  simp [hg]

theorem foldl_segStep_filter_pos (fns : SegFns) (cfg : SegConfig)
    (nbrs nbrs' : ℕ → List (ℕ × ℚ)) (hg : cfg.useModularityGuard = false) :
    ∀ (l : List Edge) (st : SegState),
      l.foldl (segStep fns cfg nbrs) st =
        (l.filter (fun e => 0 < e.w)).foldl (segStep fns cfg nbrs') st := by
  intro l
  induction l with
  | nil => intro st; rfl
  | cons e t ih =>
    intro st
    rw [List.foldl_cons]
    by_cases hw : 0 < e.w
    · rw [List.filter_cons_of_pos (by simpa using hw), List.foldl_cons]
      rw [segStep_nbrs_irrel fns cfg nbrs nbrs' st e hg]
      exact ih _
    · rw [segStep_nonpos fns cfg nbrs st e hw]
      rw [List.filter_cons_of_neg (by simpa using hw)]
      exact ih st

/-- C6 (amended): with the modularity guard disabled, edges of
non-positive weight are completely ignored: the final segmenter state on
`E` is identical to the one on `E` with all `w ≤ 0` edges removed.  (With
the guard enabled such edges still enter the total weight `m` and the
endpoint volumes — see the counterexample — although they still never
merge, never become candidates and never touch the counters.) -/
theorem claim_C6_nonpositive_edges_ignored (fns : SegFns) (cfg : SegConfig)
    (n : ℕ) (k : ℚ) (E : List Edge) (hg : cfg.useModularityGuard = false) :
    (segRunFull fns cfg n k E).1 =
      (segRunFull fns cfg n k (E.filter (fun e => 0 < e.w))).1 := by
  unfold segRunFull segRun
  simp only [hg, Bool.false_eq_true, if_false, ite_false]
  rw [foldl_segStep_filter_pos fns cfg
    (fun u => nbrList (List.insertionSort wDescLE E) u)
    (fun u => nbrList (List.insertionSort wDescLE (E.filter (fun e => 0 < e.w))) u) hg]
  rw [filter_insertionSort wDescLE (fun e => 0 < e.w) E]

/-- C6 witness: the amended statement applies to a mixed-sign edge list
with the guard disabled. -/
theorem claim_C6_witness :
    (SegConfig.useModularityGuard { useModularityGuard := false } = false) ∧
      (segRunFull ⟨fun x _ => x, fun _ => 1⟩ { useModularityGuard := false } 2 1
          [⟨0, 1, -1⟩, ⟨0, 1, 1⟩]).1 =
        (segRunFull ⟨fun x _ => x, fun _ => 1⟩ { useModularityGuard := false } 2 1
          ([⟨0, 1, -1⟩, ⟨0, 1, 1⟩].filter (fun e => 0 < e.w))).1 :=
  ⟨rfl,
    claim_C6_nonpositive_edges_ignored ⟨fun x _ => x, fun _ => 1⟩
      { useModularityGuard := false } 2 1 [⟨0, 1, -1⟩, ⟨0, 1, 1⟩] rfl⟩

/-- C6 counterexample: with the modularity guard enabled (the default), a
single negative edge changes the final state relative to removing it: the
total weight `m` becomes -1 instead of 0 and the volumes become -1, so the
claimed equality of final states (which includes `m` and the volumes)
fails. -/
theorem claim_C6_counterexample :
    (segRunFull ⟨fun x _ => x, fun _ => 1⟩ {} 2 1 [⟨0, 1, -1⟩]).1.sumW = -1 ∧
    (segRunFull ⟨fun x _ => x, fun _ => 1⟩ {} 2 1
      ([⟨0, 1, -1⟩].filter (fun e => 0 < e.w))).1.sumW = 0 ∧
    (segRunFull ⟨fun x _ => x, fun _ => 1⟩ {} 2 1 [⟨0, 1, -1⟩]).1 ≠
      (segRunFull ⟨fun x _ => x, fun _ => 1⟩ {} 2 1
        ([⟨0, 1, -1⟩].filter (fun e => 0 < e.w))).1 := by
  refine ⟨?_, ?_, ?_⟩ <;> with_unfolding_all decide

theorem applyMerge_lbAccepts (cfg : SegConfig) (st : SegState) (e : Edge)
    (a b : ℕ) (d : ℚ) : (applyMerge cfg st e a b d).lbAccepts = st.lbAccepts := by
  by_cases hg : cfg.useModularityGuard = true <;> simp [applyMerge, hg]

/-- C3 (amended): for an edge with positive weight whose endpoints have
distinct roots `a` and `b` and which passes the FH gate, the per-edge loop
increments the LB-accept counter (and accepts by the lower-bound test) if
and only if `m ≤ 0` or
`w_ab_lb / m - γ·vol[a]·vol[b] / (2 m²) ≥ tol`, where `w_ab_lb` is the
neighbor-scan bound `float(float(Σ w(u → comp b) + Σ w(v → comp a)) - w)`
— not the edge's own weight `w` — and `tol` is the annealed tolerance. -/
theorem claim_C3_lb_accept_uses_neighbor_bound (fns : SegFns)
    (cfg : SegConfig) (nbrs : ℕ → List (ℕ × ℚ)) (st : SegState) (e : Edge)
    (hg : cfg.useModularityGuard = true) (hw : 0 < e.w)
    (hab : stepA st e ≠ stepB st e)
    (hallow : allowMerge fns cfg { st with parent := stepPar st e }
      (stepA st e) (stepB st e) ((1 / e.w) / st.dScale)) :
    ((segStep fns cfg nbrs st e).lbAccepts = st.lbAccepts + 1) ↔
      lbAcceptQ cfg st (stepA st e) (stepB st e) (stepWab nbrs st e)
        (dqTol fns cfg st (stepA st e) (stepB st e)) := by
  unfold segStep
  dsimp only
  split
  · next h => exact absurd hw (by simpa using h)
  · next h =>
    split
    · next h2 => exact absurd h2 hab
    · next h2 =>
      split
      · next h3 => exact absurd hallow (by simpa using h3)
      · next h3 =>
        split
        · next hacc =>
          refine iff_of_true ?_ hacc
          rw [applyMerge_lbAccepts]
        · next hacc =>
          have hacc' : ¬ lbAcceptQ cfg st (stepA st e) (stepB st e)
              (stepWab nbrs st e)
              (dqTol fns cfg st (stepA st e) (stepB st e)) := hacc
          refine iff_of_false ?_ hacc'
          split
          · simp
          · split
            · rw [applyMerge_lbAccepts]
              simp
            · simp
            · split
              · rw [applyMerge_lbAccepts]
                simp
              · simp

/-- C3 witness: the amended statement applies to the second edge of the
concrete scenario, where the components `{0,1}` and `{2}` meet. -/
theorem claim_C3_witness :
    (c3cfg.useModularityGuard = true) ∧ (0 < (Edge.mk 0 2 1).w) ∧
      (stepA c3st1 ⟨0, 2, 1⟩ ≠ stepB c3st1 ⟨0, 2, 1⟩) ∧
      allowMerge c3fns c3cfg { c3st1 with parent := stepPar c3st1 ⟨0, 2, 1⟩ }
        (stepA c3st1 ⟨0, 2, 1⟩) (stepB c3st1 ⟨0, 2, 1⟩)
        ((1 / (Edge.mk 0 2 1).w) / c3st1.dScale) ∧
      (((segStep c3fns c3cfg c3nbrs c3st1 ⟨0, 2, 1⟩).lbAccepts =
          c3st1.lbAccepts + 1) ↔
        lbAcceptQ c3cfg c3st1 (stepA c3st1 ⟨0, 2, 1⟩) (stepB c3st1 ⟨0, 2, 1⟩)
          (stepWab c3nbrs c3st1 ⟨0, 2, 1⟩)
          (dqTol c3fns c3cfg c3st1 (stepA c3st1 ⟨0, 2, 1⟩)
            (stepB c3st1 ⟨0, 2, 1⟩))) :=
  ⟨rfl, by with_unfolding_all decide, by with_unfolding_all decide,
    by with_unfolding_all decide,
    claim_C3_lb_accept_uses_neighbor_bound c3fns c3cfg c3nbrs c3st1 ⟨0, 2, 1⟩
      rfl (by with_unfolding_all decide) (by with_unfolding_all decide)
      (by with_unfolding_all decide)⟩

/-- C3 counterexample: in the concrete scenario the edge `(0, 2, 1)` joins
the distinct components `{0,1}` and `{2}`, passes the gate, and the code
LB-accepts it (the counter increments; the full run accepts twice), yet
the claimed criterion computed with that edge's own weight `w = 1`,
`w/m - γ·vol[a]·vol[b]/(2 m²)`, is strictly below the annealed tolerance
(here 0): the code's test uses the larger neighbor-scan bound instead. -/
theorem claim_C3_counterexample :
    (segRunFull c3fns c3cfg 3 50 c3edges).1.lbAccepts = 2 ∧
    (segRunFull c3fns c3cfg 3 50 c3edges).1 =
      segStep c3fns c3cfg c3nbrs
        (segStep c3fns c3cfg c3nbrs c3st1 ⟨0, 2, 1⟩) ⟨1, 2, 3 / 4⟩ ∧
    stepA c3st1 ⟨0, 2, 1⟩ = 0 ∧ stepB c3st1 ⟨0, 2, 1⟩ = 2 ∧
    allowMerge c3fns c3cfg { c3st1 with parent := stepPar c3st1 ⟨0, 2, 1⟩ } 0 2
      ((1 / (1 : ℚ)) / c3st1.dScale) ∧
    (segStep c3fns c3cfg c3nbrs c3st1 ⟨0, 2, 1⟩).lbAccepts =
      c3st1.lbAccepts + 1 ∧
    (1 : ℚ) / c3st1.sumW -
        c3cfg.gamma * c3st1.compVol.getD 0 0 * c3st1.compVol.getD 2 0 /
          (2 * c3st1.sumW * c3st1.sumW) <
      dqTol c3fns c3cfg c3st1 0 2 := by
  refine ⟨?_, ?_, ?_, ?_, ?_, ?_, ?_⟩ <;> with_unfolding_all decide

/-- C7 counterexample: on two equal-weight edges given as `(1,2)` then
`(0,1)`, the vector after `run` keeps them in that order, which is not the
claimed weight-descending order with ties broken by `(u, v)` ascending. -/
theorem claim_C7_counterexample :
    (segRunFull ⟨fun x _ => x, fun _ => 1⟩ { useModularityGuard := false } 3 1
        [⟨1, 2, 1⟩, ⟨0, 1, 1⟩]).2 = [⟨1, 2, 1⟩, ⟨0, 1, 1⟩] ∧
    ¬ ([⟨1, 2, (1 : ℚ)⟩, ⟨0, 1, 1⟩] : List Edge).Pairwise claimEdgeOrder := by
  constructor
  · with_unfolding_all decide
  · with_unfolding_all decide

theorem alookup_upsert (p k : ℕ × ℕ) (w : ℚ) (m : List ((ℕ × ℕ) × ℚ)) :
    alookup (upsert p w m) k =
      if p = k then some ((alookup m k).getD 0 + w) else alookup m k := by
  induction m with
  | nil =>
    by_cases h : p = k <;> simp [upsert, alookup, h]
  | cons kv t ih =>
    by_cases h1 : kv.1 = p
    · by_cases h2 : p = k
      · simp [upsert, alookup, h1, h2]
      · have hk : ¬ kv.1 = k := by rw [h1]; exact h2
        simp [upsert, alookup, h1, h2, hk]
    · by_cases h2 : kv.1 = k
      · have hpk : ¬ p = k := fun hh => h1 (h2.trans hh.symm)
        have hkp : ¬ k = p := fun hh => hpk hh.symm
        simp [upsert, alookup, h1, h2, hpk, hkp]
      · simp [upsert, alookup, h1, h2, ih]

theorem keys_upsert (p : ℕ × ℕ) (w : ℚ) (m : List ((ℕ × ℕ) × ℚ)) :
    (upsert p w m).map Prod.fst =
      if p ∈ m.map Prod.fst then m.map Prod.fst
      else m.map Prod.fst ++ [p] := by
  induction m with
  | nil => simp [upsert]
  | cons kv t ih =>
    by_cases h1 : kv.1 = p
    · simp [upsert, h1]
    · have : ¬ p = kv.1 := fun hh => h1 hh.symm
      by_cases h2 : p ∈ t.map Prod.fst <;>
        simp [upsert, h1, this, h2, ih]

theorem nodup_keys_upsert (p : ℕ × ℕ) (w : ℚ) (m : List ((ℕ × ℕ) × ℚ))
    (h : (m.map Prod.fst).Nodup) : ((upsert p w m).map Prod.fst).Nodup := by
  rw [keys_upsert]
  by_cases h2 : p ∈ m.map Prod.fst
  · simpa [h2] using h
  · simp only [h2, if_false]
    refine List.Nodup.append h (List.nodup_singleton p) ?_
    intro x hx hxp
    rw [List.mem_singleton] at hxp
    exact h2 (hxp ▸ hx)

theorem alookup_foldl_upsert (w : ℚ) (ps : List (ℕ × ℕ))
    (m : List ((ℕ × ℕ) × ℚ)) (k : ℕ × ℕ) :
    alookup (ps.foldl (fun mm p => upsert p w mm) m) k =
      if 0 < ps.count k ∨ (alookup m k).isSome then
        some ((alookup m k).getD 0 + (ps.count k : ℚ) * w)
      else none := by
  induction ps generalizing m with
  | nil =>
    cases h : alookup m k <;> simp [h]
  | cons p t ih =>
    rw [List.foldl_cons, ih, alookup_upsert]
    by_cases hp : p = k
    · subst hp
      simp only [if_pos rfl, List.count_cons_self, Option.isSome_some,
        Option.getD_some, or_true, if_true]
      rw [if_pos (Or.inl (Nat.succ_pos _))]
      congr 1
      push_cast
      ring_nf
    · rw [if_neg hp]
      have hc : (p :: t).count k = t.count k := by
        simp [List.count_cons, hp]
      rw [hc]

theorem nodup_keys_foldl_upsert (w : ℚ) (ps : List (ℕ × ℕ))
    (m : List ((ℕ × ℕ) × ℚ)) (h : (m.map Prod.fst).Nodup) :
    ((ps.foldl (fun mm p => upsert p w mm) m).map Prod.fst).Nodup := by
  induction ps generalizing m with
  | nil => exact h
  | cons p t ih => exact ih _ (nodup_keys_upsert p w m h)

theorem alookup_aggClause (wp : ℕ → ℚ) (τ : ℕ) (m : List ((ℕ × ℕ) × ℚ))
    (c : Clause) (k : ℕ × ℕ) :
    alookup (aggClause wp τ m c) k =
      if (if keptB τ c then 0 < (pairsDesc (cvars c)).count k else False) ∨
          (alookup m k).isSome then
        some ((alookup m k).getD 0 +
          (if keptB τ c then ((pairsDesc (cvars c)).count k : ℚ) else 0) *
            wp c.length)
      else none := by
  unfold aggClause
  by_cases hk : keptB τ c
  · rw [if_pos hk, alookup_foldl_upsert]
    simp [hk]
  · rw [if_neg hk]
    simp only [hk, if_false, false_or, zero_mul, add_zero]
    cases h : alookup m k <;> simp [h]

theorem alookup_foldl_aggClause (wp : ℕ → ℚ) (τ : ℕ) (cs : List Clause)
    (m : List ((ℕ × ℕ) × ℚ)) (k : ℕ × ℕ) :
    alookup (cs.foldl (aggClause wp τ) m) k =
      if 0 < pairMult τ cs k ∨ (alookup m k).isSome then
        some ((alookup m k).getD 0 + pairWgt wp τ cs k)
      else none := by
  induction cs generalizing m with
  | nil =>
    cases h : alookup m k <;> simp [pairMult, pairWgt, h]
  | cons c t ih =>
    rw [List.foldl_cons, ih, alookup_aggClause]
    have hms : pairMult τ (c :: t) k =
        (if keptB τ c then (pairsDesc (cvars c)).count k else 0) +
          pairMult τ t k := by
      simp [pairMult]
    have hws : pairWgt wp τ (c :: t) k =
        (if keptB τ c then ((pairsDesc (cvars c)).count k : ℚ) * wp c.length
          else 0) + pairWgt wp τ t k := by
      simp [pairWgt]
    rw [hms, hws]
    by_cases hk : keptB τ c
    · simp only [hk, if_true]
      by_cases hc : 0 < (pairsDesc (cvars c)).count k
      · rw [if_pos (Or.inl hc)]
        rw [if_pos (Or.inr Option.isSome_some)]
        rw [if_pos (Or.inl (by omega))]
        simp only [Option.getD_some]
        congr 1
        ring_nf
      · have hc0 : (pairsDesc (cvars c)).count k = 0 := by omega
        rw [hc0]
        cases h : alookup m k <;> simp [h]
    · cases h : alookup m k <;> simp [hk, h]

theorem alookup_naiveAgg (wp : ℕ → ℚ) (τ : ℕ) (cs : List Clause)
    (k : ℕ × ℕ) :
    alookup (naiveAgg wp τ cs) k =
      if 0 < pairMult τ cs k then some (pairWgt wp τ cs k) else none := by
  unfold naiveAgg
  rw [alookup_foldl_aggClause]
  simp [alookup]

theorem nodup_keys_naiveAgg (wp : ℕ → ℚ) (τ : ℕ) (cs : List Clause) :
    ((naiveAgg wp τ cs).map Prod.fst).Nodup := by
  unfold naiveAgg
  have h : ∀ (m : List ((ℕ × ℕ) × ℚ)), (m.map Prod.fst).Nodup →
      ((cs.foldl (aggClause wp τ) m).map Prod.fst).Nodup := by
    induction cs with
    | nil => exact fun m hm => hm
    | cons c t ih =>
      intro m hm
      rw [List.foldl_cons]
      refine ih _ ?_
      unfold aggClause
      by_cases hk : keptB τ c
      · rw [if_pos hk]; exact nodup_keys_foldl_upsert _ _ m hm
      · rw [if_neg hk]; exact hm
  exact h [] (by simp)

theorem lookupW_map_mk (m : List ((ℕ × ℕ) × ℚ)) (u v : ℕ) :
    lookupW (m.map (fun kv => ⟨kv.1.1, kv.1.2, kv.2⟩)) u v =
      alookup m (u, v) := by
  induction m with
  | nil => rfl
  | cons kv t ih =>
    by_cases h : kv.1 = (u, v)
    · have h1 : kv.1.1 = u := by rw [h]
      have h2 : kv.1.2 = v := by rw [h]
      simp [lookupW, alookup, h, h1, h2]
    · have hne : ¬ (kv.1.1 = u ∧ kv.1.2 = v) := by
        rintro ⟨h1, h2⟩
        exact h (Prod.ext h1 h2)
      simp only [List.map_cons, lookupW, alookup, hne, if_false, h, ih]

theorem count_map_pair (a u v : ℕ) (rest : List ℕ) :
    (rest.map (fun b => (a, b))).count (u, v) =
      if a = u then rest.count v else 0 := by
  induction rest with
  | nil => simp
  | cons b t ih =>
    by_cases h1 : a = u
    · subst h1
      by_cases h2 : b = v
      · subst h2
        simp [List.count_cons, ih]
      · simp [List.count_cons, ih, h2, Prod.ext_iff]
    · simp [List.count_cons, ih, h1, Prod.ext_iff]

theorem count_pairsDesc (vs : List ℕ) (h : List.Pairwise (· < ·) vs)
    (u v : ℕ) :
    (pairsDesc vs).count (u, v) =
      if u ∈ vs ∧ v ∈ vs ∧ u < v then 1 else 0 := by
  induction vs with
  | nil => simp [pairsDesc]
  | cons a rest ih =>
    obtain ⟨ha, hrest⟩ := List.pairwise_cons.1 h
    have hmap : rest.map (fun b => (min a b, max a b)) =
        rest.map (fun b => (a, b)) :=
      List.map_congr_left (fun b hb => by
        have hab := ha b hb
        rw [min_eq_left hab.le, max_eq_right hab.le])
    rw [pairsDesc, List.count_append, hmap, count_map_pair, ih hrest]
    have hnm : a ∉ rest := fun hmem => lt_irrefl a (ha a hmem)
    by_cases h1 : a = u
    · subst h1
      rw [if_pos rfl]
      have hur : ¬ (a ∈ rest ∧ v ∈ rest ∧ a < v) := fun hh => hnm hh.1
      rw [if_neg hur, Nat.add_zero]
      by_cases hv : v ∈ rest
      · rw [List.count_eq_one_of_mem (hrest.imp ne_of_lt) hv,
          if_pos ⟨List.mem_cons_self a rest,
            List.mem_cons_of_mem a hv, ha v hv⟩]
      · rw [List.count_eq_zero_of_not_mem hv, if_neg]
        rintro ⟨-, hvm, hlt⟩
        rcases List.mem_cons.1 hvm with hva | hvr
        · exact lt_irrefl a (hva ▸ hlt)
        · exact hv hvr
    · rw [if_neg h1, Nat.zero_add]
      have hiff : (u ∈ rest ∧ v ∈ rest ∧ u < v) ↔
          (u ∈ a :: rest ∧ v ∈ a :: rest ∧ u < v) := by
        constructor
        · rintro ⟨hu, hv, hlt⟩
          exact ⟨List.mem_cons_of_mem a hu, List.mem_cons_of_mem a hv, hlt⟩
        · rintro ⟨hu, hv, hlt⟩
          rcases List.mem_cons.1 hu with hua | hur
          · exact absurd hua.symm h1
          · rcases List.mem_cons.1 hv with hva | hvr
            · exact absurd (hva ▸ hlt) (by
                intro hc
                exact lt_asymm hc (ha u hur))
            · exact ⟨hur, hvr, hlt⟩
      rw [if_congr hiff rfl rfl]

theorem sumFor_cons {κ : Type} [DecidableEq κ] (kv : κ × ℚ)
    (l : List (κ × ℚ)) (k : κ) :
    sumFor (kv :: l) k = (if kv.1 = k then kv.2 else 0) + sumFor l k := by
  by_cases h : kv.1 = k <;> simp [sumFor, List.filter_cons, h]

theorem sumFor_map_const (rest : List ℕ) (w : ℚ) (v : ℕ) :
    sumFor (rest.map (fun x => (x, w))) v = (rest.count v : ℚ) * w := by
  induction rest with
  | nil => simp [sumFor]
  | cons b t ih =>
    rw [List.map_cons, sumFor_cons, ih]
    by_cases h : b = v
    · subst h
      rw [if_pos rfl, List.count_cons_self]
      push_cast
      ring_nf
    · rw [if_neg h]
      have hc : (b :: t).count v = t.count v := by
        simp [List.count_cons, h]
      rw [hc, zero_add]

theorem fillVar_not_mem (vs : List ℕ) (a : ℕ) (w : ℚ) (h : a ∉ vs) :
    fillVar vs a w = [] := by
  induction vs with
  | nil => rfl
  | cons b t ih =>
    have hb : ¬ b = a := fun hh => h (hh ▸ List.mem_cons_self b t)
    rw [fillVar, if_neg hb, ih (fun hm => h (List.mem_cons_of_mem b hm))]
    rfl

theorem sumFor_fillVar (vs : List ℕ) (a : ℕ) (w : ℚ) (v : ℕ)
    (h : List.Pairwise (· < ·) vs) :
    sumFor (fillVar vs a w) v =
      if a ∈ vs ∧ v ∈ vs ∧ a < v then w else 0 := by
  induction vs with
  | nil => simp [fillVar, sumFor]
  | cons b rest ih =>
    obtain ⟨hb, hrest⟩ := List.pairwise_cons.1 h
    have hnm : b ∉ rest := fun hmem => lt_irrefl b (hb b hmem)
    rw [fillVar, sumFor_append]
    by_cases h1 : b = a
    · subst h1
      rw [if_pos rfl, fillVar_not_mem rest b w hnm]
      have hz : sumFor ([] : List (ℕ × ℚ)) v = 0 := rfl
      rw [hz, add_zero, sumFor_map_const]
      by_cases hv : v ∈ rest
      · rw [List.count_eq_one_of_mem (hrest.imp ne_of_lt) hv,
          if_pos ⟨List.mem_cons_self b rest,
            List.mem_cons_of_mem b hv, hb v hv⟩]
        ring_nf
      · rw [List.count_eq_zero_of_not_mem hv, if_neg]
        · ring_nf
        · rintro ⟨-, hvm, hlt⟩
          rcases List.mem_cons.1 hvm with hva | hvr
          · exact lt_irrefl b (hva ▸ hlt)
          · exact hv hvr
    · rw [if_neg h1]
      have hz : sumFor ([] : List (ℕ × ℚ)) v = 0 := rfl
      rw [hz, zero_add, ih hrest]
      have hiff : (a ∈ rest ∧ v ∈ rest ∧ a < v) ↔
          (a ∈ b :: rest ∧ v ∈ b :: rest ∧ a < v) := by
        constructor
        · rintro ⟨hu, hv, hlt⟩
          exact ⟨List.mem_cons_of_mem b hu, List.mem_cons_of_mem b hv, hlt⟩
        · rintro ⟨hu, hv, hlt⟩
          rcases List.mem_cons.1 hu with hua | hur
          · exact absurd hua.symm h1
          · rcases List.mem_cons.1 hv with hva | hvr
            · exact absurd (hva ▸ hlt) (fun hc => lt_asymm hc (hb a hur))
            · exact ⟨hur, hvr, hlt⟩
      rw [if_congr hiff rfl rfl]

theorem mem_keys_fillVar (vs : List ℕ) (a : ℕ) (w : ℚ) (v : ℕ)
    (h : List.Pairwise (· < ·) vs) :
    v ∈ (fillVar vs a w).map Prod.fst ↔ (a ∈ vs ∧ v ∈ vs ∧ a < v) := by
  induction vs with
  | nil => simp [fillVar]
  | cons b rest ih =>
    obtain ⟨hb, hrest⟩ := List.pairwise_cons.1 h
    have hnm : b ∉ rest := fun hmem => lt_irrefl b (hb b hmem)
    rw [fillVar]
    by_cases h1 : b = a
    · subst h1
      rw [if_pos rfl, fillVar_not_mem rest b w hnm, List.append_nil]
      constructor
      · intro hv
        rcases List.mem_map.1 hv with ⟨bw, hbw, hfst⟩
        rcases List.mem_map.1 hbw with ⟨x, hx, hxe⟩
        have hxv : x = v := by rw [← hxe] at hfst; exact hfst
        exact ⟨List.mem_cons_self b rest,
          List.mem_cons_of_mem b (hxv ▸ hx), hb v (hxv ▸ hx)⟩
      · rintro ⟨-, hvm, hlt⟩
        rcases List.mem_cons.1 hvm with hva | hvr
        · exact absurd (hva ▸ hlt) (lt_irrefl b)
        · exact List.mem_map.2 ⟨(v, w), List.mem_map.2 ⟨v, hvr, rfl⟩, rfl⟩
    · rw [if_neg h1, List.nil_append, ih hrest]
      constructor
      · rintro ⟨hu, hv, hlt⟩
        exact ⟨List.mem_cons_of_mem b hu, List.mem_cons_of_mem b hv, hlt⟩
      · rintro ⟨hu, hv, hlt⟩
        rcases List.mem_cons.1 hu with hua | hur
        · exact absurd hua (fun hh => h1 hh.symm)
        · rcases List.mem_cons.1 hv with hva | hvr
          · exact absurd (hva ▸ hlt) (fun hc => lt_asymm hc (hb a hur))
          · exact ⟨hur, hvr, hlt⟩

theorem sumFor_segEntries (wp : ℕ → ℚ) (τ : ℕ) (cs : List Clause)
    (a v : ℕ) (hnorm : ∀ c ∈ cs, List.Pairwise (· < ·) (cvars c)) :
    sumFor (segEntries wp τ cs a) v = pairWgt wp τ cs (a, v) := by
  induction cs with
  | nil => simp [segEntries, sumFor, pairWgt]
  | cons c t ih =>
    have hc := hnorm c (List.mem_cons_self c t)
    have ht : ∀ x ∈ t, List.Pairwise (· < ·) (cvars x) :=
      fun x hx => hnorm x (List.mem_cons_of_mem c hx)
    rw [segEntries, List.flatMap_cons, sumFor_append]
    have hrest : sumFor (segEntries wp τ t a) v = pairWgt wp τ t (a, v) :=
      ih ht
    rw [show t.flatMap (fun c => if keptB τ c then
        fillVar (cvars c) a (wp c.length) else []) = segEntries wp τ t a
        from rfl, hrest]
    have hw : pairWgt wp τ (c :: t) (a, v) =
        (if keptB τ c then ((pairsDesc (cvars c)).count (a, v) : ℚ) *
          wp c.length else 0) + pairWgt wp τ t (a, v) := by
      simp [pairWgt]
    rw [hw]
    congr 1
    by_cases hk : keptB τ c
    · rw [if_pos hk, if_pos hk, sumFor_fillVar _ _ _ _ hc,
        count_pairsDesc _ hc]
      by_cases hcond : a ∈ cvars c ∧ v ∈ cvars c ∧ a < v
      · rw [if_pos hcond, if_pos hcond]
        push_cast
        ring_nf
      · rw [if_neg hcond, if_neg hcond]
        push_cast
        ring_nf
    · rw [if_neg hk, if_neg hk]
      rfl

theorem mem_keys_segEntries (wp : ℕ → ℚ) (τ : ℕ) (cs : List Clause)
    (a v : ℕ) (hnorm : ∀ c ∈ cs, List.Pairwise (· < ·) (cvars c)) :
    v ∈ (segEntries wp τ cs a).map Prod.fst ↔ 0 < pairMult τ cs (a, v) := by
  induction cs with
  | nil => simp [segEntries, pairMult]
  | cons c t ih =>
    have hc := hnorm c (List.mem_cons_self c t)
    have ht : ∀ x ∈ t, List.Pairwise (· < ·) (cvars x) :=
      fun x hx => hnorm x (List.mem_cons_of_mem c hx)
    have hm : pairMult τ (c :: t) (a, v) =
        (if keptB τ c then (pairsDesc (cvars c)).count (a, v) else 0) +
          pairMult τ t (a, v) := by
      simp [pairMult]
    rw [segEntries, List.flatMap_cons, List.map_append, List.mem_append, hm]
    rw [show t.flatMap (fun c => if keptB τ c then
        fillVar (cvars c) a (wp c.length) else []) = segEntries wp τ t a
        from rfl]
    rw [ih ht]
    constructor
    · rintro (hl | hr)
      · by_cases hk : keptB τ c
        · rw [if_pos hk] at hl ⊢
          have := (mem_keys_fillVar _ _ _ _ hc).1 hl
          rw [count_pairsDesc _ hc, if_pos this]
          omega
        · rw [if_neg hk] at hl
          simp at hl
      · omega
    · intro hpos
      by_cases hk : keptB τ c
      · rw [if_pos hk] at hpos ⊢
        rw [count_pairsDesc _ hc] at hpos
        by_cases hcond : a ∈ cvars c ∧ v ∈ cvars c ∧ a < v
        · exact Or.inl ((mem_keys_fillVar _ _ _ _ hc).2 hcond)
        · rw [if_neg hcond] at hpos
          exact Or.inr (by omega)
      · rw [if_neg hk] at hpos
        exact Or.inr (by omega)

theorem sumFor_eq_zero_of_not_mem {κ : Type} [DecidableEq κ]
    (l : List (κ × ℚ)) (k : κ) (h : k ∉ l.map Prod.fst) : sumFor l k = 0 := by
  induction l with
  | nil => rfl
  | cons kv t ih =>
    rw [sumFor_cons]
    have h1 : ¬ kv.1 = k := fun hh => h (by
      rw [List.map_cons, hh]
      exact List.mem_cons_self k _)
    rw [if_neg h1, zero_add]
    exact ih (fun hm => h (by
      rw [List.map_cons]
      exact List.mem_cons_of_mem _ hm))

theorem alookup_rleGo (curr : ℕ) (acc : ℚ) (l : List (ℕ × ℚ)) (b : ℕ)
    (hs : List.Pairwise keyLE l) (hlb : ∀ x ∈ l, curr ≤ x.1) :
    alookup (rleGo curr acc l) b =
      if b = curr then some (acc + sumFor l curr)
      else if b ∈ l.map Prod.fst then some (sumFor l b) else none := by
  induction l generalizing curr acc with
  | nil =>
    by_cases hb : b = curr
    · subst hb
      simp [rleGo, alookup, sumFor]
    · have hcb : ¬ curr = b := fun hh => hb hh.symm
      simp [rleGo, alookup, sumFor, hb, hcb]
  | cons kw rest ih =>
    obtain ⟨k, w⟩ := kw
    have hk : curr ≤ k := hlb (k, w) (List.mem_cons_self _ _)
    have hrest : List.Pairwise keyLE rest := (List.pairwise_cons.1 hs).2
    have hlbr : ∀ x ∈ rest, k ≤ x.1 :=
      fun x hx => (List.pairwise_cons.1 hs).1 x hx
    rw [rleGo]
    by_cases hkc : k = curr
    · rw [if_pos hkc]
      have hlbc : ∀ x ∈ rest, curr ≤ x.1 := fun x hx => hkc ▸ hlbr x hx
      rw [ih curr (acc + w) hrest hlbc]
      by_cases hb : b = curr
      · rw [if_pos hb, if_pos hb, sumFor_cons, if_pos hkc, ← add_assoc]
      · rw [if_neg hb, if_neg hb]
        have hbk : ¬ b = k := fun hh => hb (hh.trans hkc)
        have hkb : ¬ k = b := fun hh => hbk hh.symm
        have hsum : sumFor ((k, w) :: rest) b = sumFor rest b := by
          rw [sumFor_cons, if_neg hkb, zero_add]
        rw [List.map_cons]
        by_cases hbr : b ∈ rest.map Prod.fst
        · rw [if_pos hbr, if_pos (List.mem_cons_of_mem _ hbr), hsum]
        · rw [if_neg hbr, if_neg (by
            intro hmem
            rcases List.mem_cons.1 hmem with h1 | h1
            · exact hbk h1
            · exact hbr h1)]
    · rw [if_neg hkc]
      have hck : curr < k := lt_of_le_of_ne hk (fun hh => hkc hh.symm)
      have hcnm : curr ∉ ((k, w) :: rest).map Prod.fst := by
        intro hmem
        rcases List.mem_cons.1 hmem with h1 | h1
        · exact hkc h1.symm
        · rcases List.mem_map.1 h1 with ⟨x, hx, hx1⟩
          exact absurd (hx1 ▸ hlbr x hx) (not_le.2 hck)
      by_cases hb : b = curr
      · subst hb
        have h0 : sumFor ((k, w) :: rest) b =  0 :=
          sumFor_eq_zero_of_not_mem _ _ hcnm
        rw [if_pos rfl, h0, add_zero]
        simp [alookup]
      · have hcb : ¬ curr = b := fun hh => hb hh.symm
        rw [if_neg hb]
        have halk : alookup ((curr, acc) :: rleGo k w rest) b =
            alookup (rleGo k w rest) b := by
          simp [alookup, hcb]
        rw [halk, ih k w hrest hlbr]
        by_cases hbk : b = k
        · rw [if_pos hbk]
          have hmem : b ∈ ((k, w) :: rest).map Prod.fst := by
            rw [List.map_cons, hbk]
            exact List.mem_cons_self _ _
          rw [if_pos hmem]
          subst hbk
          rw [sumFor_cons, if_pos rfl]
        · rw [if_neg hbk]
          have hkb : ¬ k = b := fun hh => hbk hh.symm
          have hsum : sumFor ((k, w) :: rest) b = sumFor rest b := by
            rw [sumFor_cons, if_neg hkb, zero_add]
          rw [List.map_cons]
          by_cases hbr : b ∈ rest.map Prod.fst
          · rw [if_pos hbr, if_pos (List.mem_cons_of_mem _ hbr), hsum]
          · rw [if_neg hbr, if_neg (by
              intro hmem
              rcases List.mem_cons.1 hmem with h1 | h1
              · exact hbk h1
              · exact hbr h1)]

theorem keys_rleGo_pairwise (curr : ℕ) (acc : ℚ) (l : List (ℕ × ℚ))
    (hs : List.Pairwise keyLE l) (hlb : ∀ x ∈ l, curr ≤ x.1) :
    List.Pairwise (· < ·) ((rleGo curr acc l).map Prod.fst) ∧
      ∀ y ∈ (rleGo curr acc l).map Prod.fst, curr ≤ y := by
  induction l generalizing curr acc with
  | nil =>
    constructor
    · simp [rleGo]
    · simp [rleGo]
  | cons kw rest ih =>
    obtain ⟨k, w⟩ := kw
    have hk : curr ≤ k := hlb (k, w) (List.mem_cons_self _ _)
    have hrest : List.Pairwise keyLE rest := (List.pairwise_cons.1 hs).2
    have hlbr : ∀ x ∈ rest, k ≤ x.1 :=
      fun x hx => (List.pairwise_cons.1 hs).1 x hx
    rw [rleGo]
    by_cases hkc : k = curr
    · rw [if_pos hkc]
      exact ih curr (acc + w) hrest (fun x hx => hkc ▸ hlbr x hx)
    · rw [if_neg hkc]
      have hck : curr < k := lt_of_le_of_ne hk (fun hh => hkc hh.symm)
      obtain ⟨hpw, hlbk⟩ := ih k w hrest hlbr
      constructor
      · rw [List.map_cons]
        exact List.pairwise_cons.2
          ⟨fun y hy => lt_of_lt_of_le hck (hlbk y hy), hpw⟩
      · rw [List.map_cons]
        intro y hy
        rcases List.mem_cons.1 hy with h1 | h1
        · exact le_of_eq h1.symm
        · exact le_trans (le_of_lt hck) (hlbk y h1)

theorem alookup_rleSum (l : List (ℕ × ℚ)) (hs : List.Pairwise keyLE l)
    (b : ℕ) :
    alookup (rleSum l) b =
      if b ∈ l.map Prod.fst then some (sumFor l b) else none := by
  cases l with
  | nil => simp [rleSum, alookup]
  | cons kw rest =>
    obtain ⟨k, w⟩ := kw
    have hrest : List.Pairwise keyLE rest := (List.pairwise_cons.1 hs).2
    have hlbr : ∀ x ∈ rest, k ≤ x.1 :=
      fun x hx => (List.pairwise_cons.1 hs).1 x hx
    rw [rleSum, alookup_rleGo k w rest b hrest hlbr]
    by_cases hbk : b = k
    · rw [if_pos hbk]
      have hmem : b ∈ ((k, w) :: rest).map Prod.fst := by
        rw [List.map_cons, hbk]
        exact List.mem_cons_self _ _
      rw [if_pos hmem]
      subst hbk
      rw [sumFor_cons, if_pos rfl]
    · rw [if_neg hbk]
      have hkb : ¬ k = b := fun hh => hbk hh.symm
      have hsum : sumFor ((k, w) :: rest) b = sumFor rest b := by
        rw [sumFor_cons, if_neg hkb, zero_add]
      rw [List.map_cons]
      by_cases hbr : b ∈ rest.map Prod.fst
      · rw [if_pos hbr, if_pos (List.mem_cons_of_mem _ hbr), hsum]
      · rw [if_neg hbr, if_neg (by
          intro hmem
          rcases List.mem_cons.1 hmem with h1 | h1
          · exact hbk h1
          · exact hbr h1)]

theorem nodup_keys_rleSum (l : List (ℕ × ℚ)) (hs : List.Pairwise keyLE l) :
    ((rleSum l).map Prod.fst).Nodup := by
  cases l with
  | nil => simp [rleSum]
  | cons kw rest =>
    obtain ⟨k, w⟩ := kw
    have hrest : List.Pairwise keyLE rest := (List.pairwise_cons.1 hs).2
    have hlbr : ∀ x ∈ rest, k ≤ x.1 :=
      fun x hx => (List.pairwise_cons.1 hs).1 x hx
    rw [rleSum]
    exact ((keys_rleGo_pairwise k w rest hrest hlbr).1).imp ne_of_lt

theorem lookupW_map_pair (a : ℕ) (l : List (ℕ × ℚ)) (u v : ℕ) :
    lookupW (l.map (fun bw => Edge.mk a bw.1 bw.2)) u v =
      if u = a then alookup l v else none := by
  induction l with
  | nil => by_cases h : u = a <;> simp [lookupW, alookup, h]
  | cons bw t ih =>
    by_cases h1 : u = a
    · subst h1
      by_cases h2 : bw.1 = v <;> simp [lookupW, alookup, h2, ih]
    · have h1a : ¬ a = u := fun hh => h1 hh.symm
      by_cases h2 : bw.1 = v <;> simp [lookupW, alookup, h1, h1a, h2, ih]

theorem lookupW_accumVar (wp : ℕ → ℚ) (τ : ℕ) (cs : List Clause)
    (a u v : ℕ) (hnorm : ∀ c ∈ cs, List.Pairwise (· < ·) (cvars c)) :
    lookupW (accumVar wp τ cs a) u v =
      if u = a ∧ 0 < pairMult τ cs (a, v) then
        some (pairWgt wp τ cs (a, v))
      else none := by
  unfold accumVar
  rw [lookupW_map_pair]
  by_cases h1 : u = a
  · rw [if_pos h1]
    have hperm := List.perm_insertionSort keyLE (segEntries wp τ cs a)
    have hsort : List.Pairwise keyLE
        (List.insertionSort keyLE (segEntries wp τ cs a)) :=
      List.sorted_insertionSort keyLE (segEntries wp τ cs a)
    rw [alookup_rleSum _ hsort v]
    have hmem : v ∈ (List.insertionSort keyLE
        (segEntries wp τ cs a)).map Prod.fst ↔ 0 < pairMult τ cs (a, v) := by
      rw [(hperm.map Prod.fst).mem_iff]
      exact mem_keys_segEntries wp τ cs a v hnorm
    have hsum : sumFor (List.insertionSort keyLE (segEntries wp τ cs a)) v =
        pairWgt wp τ cs (a, v) := by
      rw [← sumFor_segEntries wp τ cs a v hnorm]
      unfold sumFor
      exact List.Perm.sum_eq (List.Perm.map _ (List.Perm.filter _ hperm))
    rw [hsum]
    exact if_congr (by rw [hmem]; simp [h1]) rfl rfl
  · rw [if_neg h1, if_neg (fun hh => h1 hh.1)]

theorem lookupW_accumVar_other (wp : ℕ → ℚ) (τ : ℕ) (cs : List Clause)
    (a u v : ℕ) (h : ¬ u = a) :
    lookupW (accumVar wp τ cs a) u v = none := by
  unfold accumVar
  rw [lookupW_map_pair, if_neg h]

theorem nodup_ekey_accumVar (wp : ℕ → ℚ) (τ : ℕ) (cs : List Clause)
    (a : ℕ) : ((accumVar wp τ cs a).map ekey).Nodup := by
  unfold accumVar
  rw [List.map_map]
  have hcomp : (ekey ∘ fun bw : ℕ × ℚ => Edge.mk a bw.1 bw.2) =
      ((fun b => ((a, b) : ℕ × ℕ)) ∘ Prod.fst) := rfl
  rw [hcomp, ← List.map_map]
  have hsort : List.Pairwise keyLE
      (List.insertionSort keyLE (segEntries wp τ cs a)) :=
    List.sorted_insertionSort keyLE (segEntries wp τ cs a)
  refine List.Nodup.map ?_ (nodup_keys_rleSum _ hsort)
  intro x y hxy
  exact congrArg Prod.snd hxy

theorem batchesGo_cover (cnt : ℕ → ℕ) (per n : ℕ) :
    ∀ (k v start accum : ℕ), v + k = n → start ≤ v →
      (batchesGo cnt per n (List.range' v k) start accum).flatMap brange =
        List.range' start (n - start) := by
  intro k
  induction k with
  | zero =>
    intro v start accum hv hs
    have hveq : v = n := by omega
    subst hveq
    rw [List.range'_zero, batchesGo]
    by_cases hlt : start < v
    · rw [if_pos hlt, List.flatMap_cons, List.flatMap_nil, List.append_nil,
        brange, show v - 1 + 1 - start = v - start by omega]
    · rw [if_neg hlt, List.flatMap_nil,
        show v - start = 0 by omega, List.range'_zero]
  | succ k ih =>
    intro v start accum hv hs
    rw [show List.range' v (k + 1) = v :: List.range' (v + 1) k from
      List.range'_succ v k 1, batchesGo]
    by_cases hcond : per < accum + cnt v ∧ start < v
    · rw [if_pos hcond, List.flatMap_cons,
        ih (v + 1) v (cnt v) (by omega) (by omega)]
      have happ := List.range'_append start (v - start) (n - v) 1
      rw [show start + 1 * (v - start) = v by omega] at happ
      rw [show n - v + (v - start) = n - start by omega] at happ
      rw [brange, show v - 1 + 1 - start = v - start by omega, happ]
    · rw [if_neg hcond]
      exact ih (v + 1) start (accum + cnt v) (by omega) (by omega)

theorem mkBatches_cover (cnt : ℕ → ℕ) (per n : ℕ) :
    (mkBatches cnt per n).flatMap brange = List.range n := by
  unfold mkBatches
  rw [List.range_eq_range']
  have h := batchesGo_cover cnt per n n 0 0 0 (by omega) (by omega)
  rw [Nat.sub_zero] at h
  rw [← List.range_eq_range'] at h ⊢
  exact h

theorem div_lt_ceilDivT (i nB T : ℕ) (hT : 0 < T) (hi : i < nB) :
    i / T < (nB + T - 1) / T := by
  rw [show nB + T - 1 = (nB - 1) + T by omega, Nat.add_div_right _ hT]
  have h2 : i / T ≤ (nB - 1) / T := Nat.div_le_div_right (by omega)
  omega

theorem mem_batchOrder (T nB : ℕ) (hT : 0 < T) (i : ℕ) :
    i ∈ batchOrder T ((nB + T - 1) / T) nB ↔ i < nB := by
  unfold batchOrder
  rw [List.mem_flatMap]
  constructor
  · rintro ⟨tid, htid, hmem⟩
    rcases List.mem_filterMap.1 hmem with ⟨r, hr, hfr⟩
    by_cases hc : r * T + tid < nB
    · rw [if_pos hc] at hfr
      injection hfr with hh
      rw [← hh]
      exact hc
    · rw [if_neg hc] at hfr
      exact Option.noConfusion hfr
  · intro hi
    refine ⟨i % T, List.mem_range.2 (Nat.mod_lt _ hT), ?_⟩
    rw [List.mem_filterMap]
    refine ⟨i / T, List.mem_range.2 (div_lt_ceilDivT i nB T hT hi), ?_⟩
    have hieq : i / T * T + i % T = i := by
      rw [Nat.mul_comm]
      exact Nat.div_add_mod i T
    rw [hieq, if_pos hi]

theorem nodup_batchOrder (T rounds nB : ℕ) (hT : 0 < T) :
    (batchOrder T rounds nB).Nodup := by
  unfold batchOrder
  rw [List.nodup_flatMap]
  constructor
  · intro tid htid
    refine List.Nodup.filterMap ?_ (List.nodup_range rounds)
    intro r r2 b hb hb2
    by_cases h1 : r * T + tid < nB
    · rw [if_pos h1] at hb
      by_cases h2 : r2 * T + tid < nB
      · rw [if_pos h2] at hb2
        rw [Option.mem_def] at hb hb2
        injection hb with hb
        injection hb2 with hb2
        have hrr : r * T = r2 * T := by omega
        exact Nat.eq_of_mul_eq_mul_right hT hrr
      · rw [if_neg h2] at hb2
        exact absurd hb2 (by simp)
    · rw [if_neg h1] at hb
      exact absurd hb (by simp)
  · have hmod : ∀ tid, tid < T → ∀ x ∈ (List.range rounds).filterMap
        (fun r => if r * T + tid < nB then some (r * T + tid) else none),
        x % T = tid := by
      intro tid htid x hx
      rcases List.mem_filterMap.1 hx with ⟨r, hr, hfr⟩
      by_cases hc : r * T + tid < nB
      · rw [if_pos hc] at hfr
        injection hfr with hh
        rw [← hh, Nat.add_comm, Nat.add_mul_mod_self_right]
        exact Nat.mod_eq_of_lt htid
      · rw [if_neg hc] at hfr
        exact absurd hfr (by simp)
    have hpw : (List.range T).Pairwise (· < ·) := List.pairwise_lt_range T
    refine List.Pairwise.imp_of_mem ?_ hpw
    intro t1 t2 h1 h2 hlt x hx1 hx2
    have e1 := hmod t1 (List.mem_range.1 h1) x hx1
    have e2 := hmod t2 (List.mem_range.1 h2) x hx2
    omega

theorem batchOrder_perm (T nB : ℕ) (hT : 0 < T) :
    (batchOrder T ((nB + T - 1) / T) nB).Perm (List.range nB) := by
  rw [List.perm_ext_iff_of_nodup
    (nodup_batchOrder T ((nB + T - 1) / T) nB hT) (List.nodup_range nB)]
  intro i
  rw [mem_batchOrder T nB hT i, List.mem_range]

theorem range_getD_flatMap {α β : Type} (l : List α) (d : α)
    (f : α → List β) :
    (List.range l.length).flatMap (fun i => f (l.getD i d)) = l.flatMap f := by
  induction l with
  | nil => rfl
  | cons a t ih =>
    rw [List.length_cons, List.range_succ_eq_map, List.flatMap_cons,
      List.flatMap_map]
    have hh : (a :: t).getD 0 d = a := rfl
    rw [hh, List.flatMap_cons]
    congr 1

theorem lookupW_append (l1 l2 : List Edge) (u v : ℕ) :
    lookupW (l1 ++ l2) u v =
      if (lookupW l1 u v).isSome then lookupW l1 u v else lookupW l2 u v := by
  induction l1 with
  | nil => simp [lookupW]
  | cons e t ih =>
    by_cases h : e.u = u ∧ e.v = v
    · simp [lookupW, h]
    · simp [lookupW, h, ih]

theorem lookupW_flatMap_vars (wp : ℕ → ℚ) (τ : ℕ) (cs : List Clause)
    (vars : List ℕ) (u v : ℕ) :
    lookupW (vars.flatMap (accumVar wp τ cs)) u v =
      if u ∈ vars then lookupW (accumVar wp τ cs u) u v else none := by
  induction vars with
  | nil => simp [lookupW]
  | cons a t ih =>
    rw [List.flatMap_cons, lookupW_append, ih]
    by_cases h1 : u = a
    · subst h1
      by_cases h2 : (lookupW (accumVar wp τ cs u) u v).isSome
      · rw [if_pos h2, if_pos (List.mem_cons_self u t)]
      · rw [if_neg h2]
        rw [Option.not_isSome_iff_eq_none] at h2
        rw [if_pos (List.mem_cons_self u t), h2, ite_self]
    · have hnone : lookupW (accumVar wp τ cs a) u v = none :=
        lookupW_accumVar_other wp τ cs a u v h1
      rw [hnone]
      simp only [Option.isSome_none, Bool.false_eq_true, if_false]
      have hiff : (u ∈ t) ↔ (u ∈ a :: t) := by
        constructor
        · exact List.mem_cons_of_mem a
        · intro hm
          rcases List.mem_cons.1 hm with hh | hh
          · exact absurd hh h1
          · exact hh
      rw [if_congr hiff rfl rfl]

theorem fst_mem_ekey_accumVar (wp : ℕ → ℚ) (τ : ℕ) (cs : List Clause)
    (a : ℕ) : ∀ x ∈ (accumVar wp τ cs a).map ekey, x.1 = a := by
  intro x hx
  rcases List.mem_map.1 hx with ⟨e, he, hex⟩
  unfold accumVar at he
  rcases List.mem_map.1 he with ⟨bw, hbw, hbe⟩
  rw [← hex, ← hbe]
  rfl

theorem nodup_ekey_flatMap (wp : ℕ → ℚ) (τ : ℕ) (cs : List Clause)
    (vars : List ℕ) (h : vars.Nodup) :
    ((vars.flatMap (accumVar wp τ cs)).map ekey).Nodup := by
  rw [List.map_flatMap, List.nodup_flatMap]
  refine ⟨fun a ha => nodup_ekey_accumVar wp τ cs a, ?_⟩
  refine h.imp ?_
  intro a b hab x hx1 hx2
  have e1 := fst_mem_ekey_accumVar wp τ cs a x hx1
  have e2 := fst_mem_ekey_accumVar wp τ cs b x hx2
  exact hab (e1 ▸ e2 ▸ rfl)

theorem flatMap_batches_eq (wp : ℕ → ℚ) (τ : ℕ) (cs : List Clause)
    (cnt : ℕ → ℕ) (per n T : ℕ) (hT : 0 < T) :
    ∃ vars : List ℕ, vars.Perm (List.range n) ∧
      (batchOrder T (((mkBatches cnt per n).length + T - 1) / T)
          (mkBatches cnt per n).length).flatMap
        (fun i => batchEdges wp τ cs ((mkBatches cnt per n).getD i (1, 0))) =
        vars.flatMap (accumVar wp τ cs) := by
  refine ⟨(batchOrder T (((mkBatches cnt per n).length + T - 1) / T)
      (mkBatches cnt per n).length).flatMap
      (fun i => brange ((mkBatches cnt per n).getD i (1, 0))), ?_, ?_⟩
  · have h1 := batchOrder_perm T (mkBatches cnt per n).length hT
    have h2 := List.Perm.flatMap_right
      (fun i => brange ((mkBatches cnt per n).getD i (1, 0))) h1
    have h3 : (List.range (mkBatches cnt per n).length).flatMap
        (fun i => brange ((mkBatches cnt per n).getD i (1, 0))) =
        (mkBatches cnt per n).flatMap brange :=
      range_getD_flatMap (mkBatches cnt per n) (1, 0) brange
    rw [h3, mkBatches_cover] at h2
    exact h2
  · exact (List.flatMap_assoc _ _ _).symm

theorem optEdges_spec (wp : ℕ → ℚ) (τ : ℕ) (cs : List Clause) (n B T : ℕ)
    (hT : 0 < T) :
    ∃ vars : List ℕ, vars.Perm (List.range n) ∧
      optEdges wp τ cs n B T = vars.flatMap (accumVar wp τ cs) := by
  unfold optEdges
  exact flatMap_batches_eq wp τ cs (contribC τ cs) _ n T hT

theorem pairMult_pos_lt (τ : ℕ) (cs : List Clause) (n u v : ℕ)
    (hnorm : ∀ c ∈ cs, List.Pairwise (· < ·) (cvars c))
    (hrange : ∀ c ∈ cs, ∀ x ∈ cvars c, x < n)
    (hp : 0 < pairMult τ cs (u, v)) : u < n ∧ v < n ∧ u < v := by
  unfold pairMult at hp
  have hex : ∃ c ∈ cs,
      0 < (if keptB τ c then (pairsDesc (cvars c)).count (u, v) else 0) := by
    by_contra hno
    push_neg at hno
    have hz : (cs.map (fun c =>
        if keptB τ c then (pairsDesc (cvars c)).count (u, v) else 0)).sum
        = 0 := by
      rw [List.sum_eq_zero_iff]
      intro x hx
      rcases List.mem_map.1 hx with ⟨c, hcmem, hcx⟩
      have := hno c hcmem
      omega
    omega
  obtain ⟨c, hcmem, hcpos⟩ := hex
  by_cases hk : keptB τ c
  · rw [if_pos hk, count_pairsDesc _ (hnorm c hcmem)] at hcpos
    by_cases hcond : u ∈ cvars c ∧ v ∈ cvars c ∧ u < v
    · exact ⟨hrange c hcmem u hcond.1, hrange c hcmem v hcond.2.1,
        hcond.2.2⟩
    · rw [if_neg hcond] at hcpos
      omega
  · rw [if_neg hk] at hcpos
    omega

theorem optEdges_lookup (wp : ℕ → ℚ) (τ : ℕ) (cs : List Clause)
    (n B T : ℕ) (hT : 0 < T)
    (hnorm : ∀ c ∈ cs, List.Pairwise (· < ·) (cvars c))
    (hrange : ∀ c ∈ cs, ∀ x ∈ cvars c, x < n) (u v : ℕ) :
    lookupW (optEdges wp τ cs n B T) u v =
      if 0 < pairMult τ cs (u, v) then some (pairWgt wp τ cs (u, v))
      else none := by
  obtain ⟨vars, hperm, heq⟩ := optEdges_spec wp τ cs n B T hT
  rw [heq, lookupW_flatMap_vars]
  have hmem : u ∈ vars ↔ u < n := by
    rw [hperm.mem_iff, List.mem_range]
  by_cases hu : u < n
  · rw [if_pos (hmem.2 hu), lookupW_accumVar wp τ cs u u v hnorm]
    exact if_congr (by simp) rfl rfl
  · rw [if_neg (fun hh => hu (hmem.1 hh))]
    by_cases hp : 0 < pairMult τ cs (u, v)
    · exact absurd (pairMult_pos_lt τ cs n u v hnorm hrange hp).1 hu
    · rw [if_neg hp]

theorem naiveEdges_lookup (wp : ℕ → ℚ) (τ : ℕ) (cs : List Clause)
    (u v : ℕ) :
    lookupW (naiveEdges wp τ cs) u v =
      if 0 < pairMult τ cs (u, v) then some (pairWgt wp τ cs (u, v))
      else none := by
  unfold naiveEdges
  rw [lookupW_map_mk, alookup_naiveAgg]

theorem nodup_ekey_naiveEdges (wp : ℕ → ℚ) (τ : ℕ) (cs : List Clause) :
    ((naiveEdges wp τ cs).map ekey).Nodup := by
  unfold naiveEdges
  rw [List.map_map]
  have hcomp : (ekey ∘ fun kv : (ℕ × ℕ) × ℚ => Edge.mk kv.1.1 kv.1.2 kv.2) =
      Prod.fst := by
    funext kv
    show ((kv.1.1, kv.1.2) : ℕ × ℕ) = kv.1
    exact Prod.mk.eta
  rw [hcomp]
  exact nodup_keys_naiveAgg wp τ cs

theorem lookupW_isSome_iff (es : List Edge) (u v : ℕ) :
    (lookupW es u v).isSome = true ↔ (u, v) ∈ es.map ekey := by
  induction es with
  | nil => simp [lookupW]
  | cons e t ih =>
    by_cases h : e.u = u ∧ e.v = v
    · have hlk : lookupW (e :: t) u v = some e.w := by
        simp only [lookupW]
        rw [if_pos h]
      rw [hlk, List.map_cons]
      simp only [Option.isSome_some, List.mem_cons, true_iff]
      refine Or.inl ?_
      show ((u, v) : ℕ × ℕ) = ekey e
      exact Prod.ext h.1.symm h.2.symm
    · simp only [lookupW, h, if_false, List.map_cons, List.mem_cons, ih]
      constructor
      · exact fun hh => Or.inr hh
      · rintro (hh | hh)
        · refine absurd ?_ h
          rw [ekey] at hh
          exact ⟨congrArg Prod.fst hh.symm, congrArg Prod.snd hh.symm⟩
        · exact hh

theorem mem_iff_lookupW (es : List Edge) (h : (es.map ekey).Nodup)
    (e : Edge) : e ∈ es ↔ lookupW es e.u e.v = some e.w := by
  induction es with
  | nil => simp [lookupW]
  | cons f t ih =>
    rw [List.map_cons] at h
    obtain ⟨hhead, htail⟩ := List.pairwise_cons.1 h
    by_cases hf : f.u = e.u ∧ f.v = e.v
    · have hkey : ekey f = ekey e := Prod.ext hf.1 hf.2
      have hlk : lookupW (f :: t) e.u e.v = some f.w := by
        simp only [lookupW]
        rw [if_pos hf]
      rw [hlk, List.mem_cons]
      constructor
      · rintro (he | he)
        · rw [he]
        · exact absurd hkey (hhead (ekey e) (List.mem_map_of_mem ekey he))
      · intro hlk2
        injection hlk2 with hw
        left
        cases e
        cases f
        simp only [Edge.mk.injEq] at hf hw ⊢
        exact ⟨hf.1.symm, hf.2.symm, hw.symm⟩
    · simp only [lookupW, hf, if_false, List.mem_cons]
      have hne : ¬ e = f := fun hh => hf (by rw [hh]; exact ⟨rfl, rfl⟩)
      rw [ih htail]
      constructor
      · rintro (he | he)
        · exact absurd he hne
        · exact he
      · exact fun hh => Or.inr hh

theorem naiveAgg_nil_of_none_kept (wp : ℕ → ℚ) (τ : ℕ) (cs : List Clause)
    (h : ∀ c ∈ cs, ¬ keptB τ c) : naiveAgg wp τ cs = [] := by
  unfold naiveAgg
  induction cs with
  | nil => rfl
  | cons c t ih =>
    rw [List.foldl_cons]
    have hc : aggClause wp τ [] c = [] := by
      unfold aggClause
      rw [if_neg (h c (List.mem_cons_self c t))]
    rw [hc]
    exact ih (fun x hx => h x (List.mem_cons_of_mem c hx))

/-- C1 (amended): the refinement holds for the construction SHAPE, not for
the weights the two builders actually use.  For every per-pair weight
function `wp` applied by BOTH sides, every clause-size threshold, every
buffer budget `B ≥ 1` and thread count `T ≥ 1`, and every CNF whose clauses
are in normal form (strictly increasing zero-based variable indices, all
below `n`), the optimized builder succeeds and produces exactly the naive
edge multiset: the same `(u, v)` keys, each exactly once, with equal
weights.  The actual builders instantiate `wp` differently — the naive path
accumulates the `double` `inv_binom2(s)` while the optimized path
accumulates the narrowed `float` `w_table[s]` — which breaks the claimed
`1e-12` per-edge weight tolerance (see the counterexample). -/
theorem claim_C1_same_edges_common_weights (wp : ℕ → ℚ) (cnf : CNFModel)
    (τ B T : ℕ) (hB : 0 < B) (hT : 0 < T)
    (hnorm : ∀ c ∈ cnf.clauses, List.Pairwise (· < ·) (cvars c))
    (hrange : ∀ c ∈ cnf.clauses, ∀ x ∈ cvars c, x < cnf.varCount) :
    ∃ V : VIGModel,
      buildVigOptimizedW wp cnf τ B false T = Except.ok V ∧
      V.n = (buildVigNaiveW wp cnf τ false).n ∧
      (V.edges.map ekey).Nodup ∧
      ((buildVigNaiveW wp cnf τ false).edges.map ekey).Nodup ∧
      (V.edges.map ekey).Perm
        ((buildVigNaiveW wp cnf τ false).edges.map ekey) ∧
      V.edges.Perm (buildVigNaiveW wp cnf τ false).edges ∧
      ∀ u v, lookupW V.edges u v =
        lookupW (buildVigNaiveW wp cnf τ false).edges u v := by
  have hnedges : (buildVigNaiveW wp cnf τ false).edges =
      naiveEdges wp τ cnf.clauses := rfl
  by_cases hn : cnf.varCount = 0
  · have hnk : ∀ c ∈ cnf.clauses, ¬ keptB τ c := by
      intro c hc hk
      cases c with
      | nil => simp [keptB] at hk
      | cons l rest =>
        have hx : (l.natAbs - 1) ∈ cvars (l :: rest) := by
          simp [cvars]
        have := hrange (l :: rest) hc _ hx
        omega
    have hagg : naiveAgg wp τ cnf.clauses = [] :=
      naiveAgg_nil_of_none_kept wp τ _ hnk
    have hne : (buildVigNaiveW wp cnf τ false).edges = [] := by
      rw [hnedges]
      unfold naiveEdges
      rw [hagg]
      rfl
    refine ⟨⟨0, []⟩, ?_, ?_, ?_, ?_, ?_, ?_, ?_⟩
    · unfold buildVigOptimizedW
      rw [if_pos hn]
    · show 0 = cnf.varCount
      omega
    · simp
    · rw [hne]
      simp
    · rw [hne]
    · rw [hne]
    · intro u v
      rw [hne]
  · obtain ⟨vars, hvperm, hveq⟩ :=
      optEdges_spec wp τ cnf.clauses cnf.varCount B T hT
    have hvnodup : vars.Nodup :=
      (hvperm.nodup_iff).2 (List.nodup_range _)
    have hlkeq : ∀ u v,
        lookupW (optEdges wp τ cnf.clauses cnf.varCount B T) u v =
        lookupW (buildVigNaiveW wp cnf τ false).edges u v := by
      intro u v
      rw [hnedges, optEdges_lookup wp τ cnf.clauses cnf.varCount B T hT
        hnorm hrange u v, naiveEdges_lookup]
    have hoptnodup :
        ((optEdges wp τ cnf.clauses cnf.varCount B T).map ekey).Nodup := by
      rw [hveq]
      exact nodup_ekey_flatMap wp τ cnf.clauses vars hvnodup
    have hnvnodup : ((buildVigNaiveW wp cnf τ false).edges.map ekey).Nodup := by
      rw [hnedges]
      exact nodup_ekey_naiveEdges wp τ cnf.clauses
    have hkperm : ((optEdges wp τ cnf.clauses cnf.varCount B T).map
        ekey).Perm ((buildVigNaiveW wp cnf τ false).edges.map ekey) := by
      rw [List.perm_ext_iff_of_nodup hoptnodup hnvnodup]
      intro k
      have h1 := lookupW_isSome_iff
        (optEdges wp τ cnf.clauses cnf.varCount B T) k.1 k.2
      have h2 := lookupW_isSome_iff
        (buildVigNaiveW wp cnf τ false).edges k.1 k.2
      rw [Prod.mk.eta] at h1 h2
      rw [← h1, ← h2, hlkeq k.1 k.2]
    have heperm : (optEdges wp τ cnf.clauses cnf.varCount B T).Perm
        (buildVigNaiveW wp cnf τ false).edges := by
      rw [List.perm_ext_iff_of_nodup (List.Nodup.of_map ekey hoptnodup)
        (List.Nodup.of_map ekey hnvnodup)]
      intro e
      rw [mem_iff_lookupW _ hoptnodup e, mem_iff_lookupW _ hnvnodup e,
        hlkeq e.u e.v]
    refine ⟨⟨cnf.varCount, optEdges wp τ cnf.clauses cnf.varCount B T⟩,
      ?_, rfl, hoptnodup, hnvnodup, hkperm, heperm, hlkeq⟩
    unfold buildVigOptimizedW
    rw [if_neg hn, if_neg (by omega : ¬ B = 0), if_neg (by omega : ¬ T = 0)]
    rfl

set_option maxRecDepth 8000 in
/-- C1 witness: the amended statement applies to the single-clause CNF with
threads `T = 2`, a buffer budget of `10` contributions and the naive
`double` per-pair weights on both sides. -/
theorem claim_C1_witness :
    ((0 : ℕ) < 10 ∧ (0 : ℕ) < 2 ∧
      (∀ c ∈ c1cnf.clauses, List.Pairwise (· < ·) (cvars c)) ∧
      (∀ c ∈ c1cnf.clauses, ∀ x ∈ cvars c, x < c1cnf.varCount)) ∧
    (∃ V : VIGModel,
      buildVigOptimizedW wpairD c1cnf 10 10 false 2 = Except.ok V ∧
      V.n = (buildVigNaiveW wpairD c1cnf 10 false).n ∧
      (V.edges.map ekey).Nodup ∧
      ((buildVigNaiveW wpairD c1cnf 10 false).edges.map ekey).Nodup ∧
      (V.edges.map ekey).Perm
        ((buildVigNaiveW wpairD c1cnf 10 false).edges.map ekey) ∧
      V.edges.Perm (buildVigNaiveW wpairD c1cnf 10 false).edges ∧
      ∀ u v, lookupW V.edges u v =
        lookupW (buildVigNaiveW wpairD c1cnf 10 false).edges u v) :=
  ⟨⟨by decide, by decide, by decide, by decide⟩,
    claim_C1_same_edges_common_weights wpairD c1cnf 10 10 2
      (by decide) (by decide) (by decide) (by decide)⟩

set_option maxRecDepth 8000 in
/-- C1 counterexample: on the single clause `(1 ∨ 2 ∨ 3)` the naive builder
stores the edge `(0, 1)` with the `double` weight `fl64(1/3)` while the
optimized builder stores the `float` table weight `fl32(fl64(1/3))`; the
two differ by about `9.9e-9`, far beyond the claimed `1e-12` per-edge
tolerance. -/
theorem claim_C1_counterexample :
    (buildVigNaive c1cnf 10 false).edges =
      [⟨0, 1, wpairD 3⟩, ⟨0, 2, wpairD 3⟩, ⟨1, 2, wpairD 3⟩] ∧
    (buildVigOptimized c1cnf 10 10 false 1).toOption.map VIGModel.edges =
      some [⟨0, 1, wpairF 3⟩, ⟨0, 2, wpairF 3⟩, ⟨1, 2, wpairF 3⟩] ∧
    (wpairD 3).num = 6004799503160661 ∧
    (wpairD 3).den = 18014398509481984 ∧
    (wpairF 3).num = 11184811 ∧
    (wpairF 3).den = 33554432 ∧
    mkRat 1 (10 ^ 12) <
      |mkRat 11184811 33554432 - mkRat 6004799503160661 18014398509481984| := by
  refine ⟨rfl, rfl, ?_, ?_, ?_, ?_, ?_⟩ <;> with_unfolding_all decide

end ThesisModel
